import Mathlib

/-!
Verification development for the MakingCosmetics catalog scraper
(`src/app.py`).  The Python source is shallowly embedded: each scraping
routine becomes a pure Lean function over an explicit model of the parsed
page, monetary amounts are carried as exact cent counts (`Nat`) instead of
IEEE floats (every price the program formats is produced through Python's
`f'${v:.2f}'`, which on the two-decimal amounts the regexes admit agrees
with exact cent arithmetic), network fetches become explicit
`String → Option _` maps, and a caught Python exception becomes an
`Except`/`Option` value.  Regular-expression searches from the source are
re-implemented as character-level scanners that follow Python `re`
semantics (leftmost match, first-alternative preference, greedy
quantifiers with the - here always trivial - backtracking the concrete
patterns allow).
-/

namespace Scrape

/-- Python `\s` / `str.strip()` whitespace over the ASCII range:
space, tab, LF, VT, FF, CR. -/
def isSpaceChar (c : Char) : Bool :=
  c.toNat = 32 || (9 ≤ c.toNat && c.toNat ≤ 13)

/-- Python `\w` word character (ASCII approximation: the source only ever
matches ASCII text): letters, digits, underscore. -/
def isWordChar (c : Char) : Bool :=
  c.isAlpha || c.isDigit || c = '_'

/-- ASCII lower-casing, as used for the source's `re.IGNORECASE` matches and
`str.lower()` calls (the scraped text is ASCII). -/
def lowerChar (c : Char) : Char := c.toLower

/-- Case-insensitive prefix test: does `cs` start with the (already
lowercase) literal `lit`? -/
def startsWithCI : List Char → List Char → Bool
  | [], _ => true
  | _ :: _, [] => false
  | l :: ls, c :: cs => lowerChar c = l && startsWithCI ls cs

/-- Case-sensitive prefix test for character lists. -/
def startsWithCS : List Char → List Char → Bool
  | [], _ => true
  | _ :: _, [] => false
  | l :: ls, c :: cs => c = l && startsWithCS ls cs

/-- Substring search (case-insensitive), modelling Python's
`re.search(literal, s, re.IGNORECASE)` and `lit in s.lower()`. -/
def containsCI (cs : List Char) (lit : List Char) : Bool :=
  match cs with
  | [] => startsWithCI lit []
  | _ :: rest => startsWithCI lit cs || containsCI rest lit

/-- Substring search (case-sensitive), modelling Python's `lit in s`. -/
def containsCS (cs : List Char) (lit : List Char) : Bool :=
  match cs with
  | [] => startsWithCS lit []
  | _ :: rest => startsWithCS lit cs || containsCS rest lit

/-- Python `lit in s` on strings (case-sensitive). -/
def strContains (s lit : String) : Bool := containsCS s.data lit.data

/-- Python `lit in s.lower()` / case-insensitive literal `re.search`. -/
def strContainsCI (s lit : String) : Bool := containsCI s.data lit.data

/-- Left-strip of Python `str.strip()`. -/
def trimLeftList (cs : List Char) : List Char := cs.dropWhile isSpaceChar

/-- Right-strip of Python `str.strip()`. -/
def trimRightList (cs : List Char) : List Char :=
  (cs.reverse.dropWhile isSpaceChar).reverse

/-- Python `str.strip()` on character lists. -/
def stripList (cs : List Char) : List Char := trimRightList (trimLeftList cs)

/-- Python `str.strip()`. -/
def strip (s : String) : String := ⟨stripList s.data⟩

/-- Collapse whitespace runs to single spaces, the effect of
`re.sub(r'\s+', ' ', s)`.  The flag records whether the previous character
was part of a whitespace run. -/
def collapseWsAux : Bool → List Char → List Char
  | _, [] => []
  | prevSp, c :: rest =>
    if isSpaceChar c then
      if prevSp then collapseWsAux true rest
      else ' ' :: collapseWsAux true rest
    else c :: collapseWsAux false rest

/-- Model of `re.sub(r'\s+', ' ', s.strip())` — the whitespace normalisation applied
to size matches throughout the source. -/
def normWs (s : String) : String := ⟨collapseWsAux false (stripList s.data)⟩

/-- Digits of a natural number, most significant first (fuel-indexed so the
kernel can evaluate it; the fuel `n+1` always suffices). -/
def natDigitsAux : Nat → Nat → List Char
  | 0, _ => []
  | fuel + 1, n =>
    if n < 10 then [Char.ofNat (48 + n)]
    else natDigitsAux fuel (n / 10) ++ [Char.ofNat (48 + n % 10)]

/-- Decimal digit characters of `n`. -/
def natDigits (n : Nat) : List Char := natDigitsAux (n + 1) n

/-- Python `f'${v:.2f}'` on an exact amount of `c` cents: a dollar sign, the
integer part, a dot, and exactly two decimal digits. -/
def fmtCents (c : Nat) : String :=
  ⟨'$' :: natDigits (c / 100) ++ ['.', Char.ofNat (48 + c % 100 / 10), Char.ofNat (48 + c % 10)]⟩

/-- The wire format claimed for prices: `$` + nonempty digit run + `.` + two
digits, nothing else (in particular no thousands separators). -/
def isDollarFmtTail : List Char → Bool
  | ['.', a, b] => a.isDigit && b.isDigit
  | _ => false

/-- Character-list form of the wire-format check. -/
def isDollarFmtList : List Char → Bool
  | c :: rest =>
    c = '$' && !(rest.takeWhile Char.isDigit).isEmpty &&
      isDollarFmtTail (rest.dropWhile Char.isDigit)
  | _ => false

def isDollarFmt (s : String) : Bool := isDollarFmtList s.data

/-- Value of a digit character. -/
def digitVal (c : Char) : Nat := c.toNat - 48

/-- Cents denoted by a plain comma-free decimal string (`digits`,
`digits.digits`, or `.digits`), i.e. Python's `float(s)` followed by
`f'{v:.2f}'` for the strings the source feeds it.  Returns `none` when the
string is not such a decimal (Python `float` raises `ValueError` there —
exotic accepted forms such as exponents, signs or `inf` never reach these
call sites).  For at most two fraction digits the result is exact; a longer
fraction rounds half-up on the third digit, whereas Python formats the
nearest binary double half-even, so the two agree except at exact decimal
ties. -/
def parseCents (cs : List Char) : Option Nat :=
  let intPart := cs.takeWhile Char.isDigit
  let rest := cs.dropWhile Char.isDigit
  let intVal := intPart.foldl (fun a c => a * 10 + digitVal c) 0
  match rest with
  | [] => if intPart.isEmpty then none else some (intVal * 100)
  | '.' :: fs =>
    if fs.all Char.isDigit && !(intPart.isEmpty && fs.isEmpty) then
      some (intVal * 100 + digitVal (fs.getD 0 '0') * 10 + digitVal (fs.getD 1 '0')
        + (if 5 ≤ digitVal (fs.getD 2 '0') then 1 else 0))
    else none
  | _ => none

/-- Python `.replace(',', '')` on character lists. -/
def dropCommas (cs : List Char) : List Char := cs.filter (· ≠ ',')

end Scrape


namespace Scrape

/-- Digit-or-comma, Python's `[\d,]` class (ASCII digits in scraped text). -/
def isDigitOrComma (c : Char) : Bool := c.isDigit || c = ','

/-- A `\b` boundary holds after a word character iff the next character is
not a word character (or the input ends). -/
def boundaryOk : List Char → Bool
  | [] => true
  | c :: _ => !isWordChar c

/-- Unit alternatives of the shared size regex
`(?:oz|g|ml|kg|lb|gram|liter|L)`, in the source's alternation order,
lower-cased for the `re.IGNORECASE` comparison. -/
def unitAlternatives : List (List Char) :=
  [['o','z'], ['g'], ['m','l'], ['k','g'], ['l','b'],
   ['g','r','a','m'], ['l','i','t','e','r'], ['l']]

/-- Try the unit alternatives in order at `cs`, requiring the trailing `\b`;
returns the number of characters consumed.  A later alternative is tried
when an earlier one matches but its boundary fails (Python backtracking). -/
def tryUnit (cs : List Char) : Option Nat :=
  unitAlternatives.findSome? fun u =>
    if startsWithCI u cs && boundaryOk (cs.drop u.length) then some u.length else none

/-- Match the shared size regex
`\b\d+(?:\.\d+)?\s*(?:fl\s*)?(?:oz|g|ml|kg|lb|gram|liter|L)\b`
(`re.IGNORECASE`) at the head of `cs`, given whether the preceding
character is a word character; returns the number of characters matched.
The greedy optional `fl\s*` is tried first and dropped when no unit
follows it. -/
def sizeTokenAt (prevWord : Bool) (cs : List Char) : Option Nat :=
  if prevWord then none
  else match cs with
  | [] => none
  | c :: rest =>
    if !c.isDigit then none
    else
      let ds := rest.takeWhile Char.isDigit
      let r1 := rest.dropWhile Char.isDigit
      let n1 := 1 + ds.length
      let frac : Nat × List Char :=
        match r1 with
        | '.' :: t =>
          let fs := t.takeWhile Char.isDigit
          if fs.isEmpty then (n1, r1) else (n1 + 1 + fs.length, t.dropWhile Char.isDigit)
        | _ => (n1, r1)
      let n2 := frac.1
      let r2 := frac.2
      let n3 := n2 + (r2.takeWhile isSpaceChar).length
      let r3 := r2.dropWhile isSpaceChar
      let withFl : Option Nat :=
        if startsWithCI ['f','l'] r3 then
          let r4 := r3.drop 2
          let sp2 := (r4.takeWhile isSpaceChar).length
          (tryUnit (r4.dropWhile isSpaceChar)).map (fun k => n3 + 2 + sp2 + k)
        else none
      match withFl with
      | some n => some n
      | none => (tryUnit r3).map (fun k => n3 + k)

/-- Leftmost match of the shared size regex: the `re.findall(...)[0]` /
`re.search` used for sizes throughout the strategies.  The flag carries
whether the previous character is a word character (for `\b`). -/
def scanSizeToken : Bool → List Char → Option (List Char)
  | _, [] => none
  | prevWord, c :: rest =>
    match sizeTokenAt prevWord (c :: rest) with
    | some n => some (c :: rest.take (n - 1))
    | none => scanSizeToken (isWordChar c) rest

/-- First size-pattern match in `s`, as a string (`group(0)`). -/
def firstSizeMatch (s : String) : Option String :=
  (scanSizeToken false s.data).map fun m => ⟨m⟩

/-- Attempt `\$([\d,]+\.\d{2})` at the head of `cs`; returns the capture
group. -/
def strictDollarAt : List Char → Option (List Char)
  | '$' :: rest =>
    let run := rest.takeWhile isDigitOrComma
    if run.isEmpty then none
    else
      match rest.dropWhile isDigitOrComma with
      | '.' :: a :: b :: _ =>
        if a.isDigit && b.isDigit then some (run ++ ['.', a, b]) else none
      | _ => none
  | _ => none

/-- Leftmost `re.search(r'\$([\d,]+\.\d{2})', s)` capture. -/
def scanStrictDollar : List Char → Option (List Char)
  | [] => none
  | c :: rest =>
    match strictDollarAt (c :: rest) with
    | some g => some g
    | none => scanStrictDollar rest

/-- Attempt `\$([\d,]+(?:\.\d{2})?)` at the head of `cs`. -/
def broadDollarAt : List Char → Option (List Char)
  | '$' :: rest =>
    let run := rest.takeWhile isDigitOrComma
    if run.isEmpty then none
    else
      match rest.dropWhile isDigitOrComma with
      | '.' :: a :: b :: _ =>
        if a.isDigit && b.isDigit then some (run ++ ['.', a, b]) else some run
      | _ => some run
  | _ => none

/-- Leftmost `re.search(r'\$([\d,]+(?:\.\d{2})?)', s)` capture. -/
def scanBroadDollar : List Char → Option (List Char)
  | [] => none
  | c :: rest =>
    match broadDollarAt (c :: rest) with
    | some g => some g
    | none => scanBroadDollar rest

/-- Attempt `([\d,]+(?:\.\d{2})?)` (no dollar anchor, the `data-price`
pattern) at the head of `cs`. -/
def numGroupAt : List Char → Option (List Char)
  | [] => none
  | c :: rest =>
    if isDigitOrComma c then
      let run := c :: rest.takeWhile isDigitOrComma
      match rest.dropWhile isDigitOrComma with
      | '.' :: a :: b :: _ =>
        if a.isDigit && b.isDigit then some (run ++ ['.', a, b]) else some run
      | _ => some run
    else none

/-- Leftmost `re.search(r'([\d,]+(?:\.\d{2})?)', s)` capture. -/
def scanNumGroup : List Char → Option (List Char)
  | [] => none
  | c :: rest =>
    match numGroupAt (c :: rest) with
    | some g => some g
    | none => scanNumGroup rest

/-- Attempt `([\d,]+\.\d{2})` (the inline-script string-price pattern) at
the head of `cs`. -/
def numStrictAt : List Char → Option (List Char)
  | [] => none
  | c :: rest =>
    if isDigitOrComma c then
      let run := c :: rest.takeWhile isDigitOrComma
      match rest.dropWhile isDigitOrComma with
      | '.' :: a :: b :: _ =>
        if a.isDigit && b.isDigit then some (run ++ ['.', a, b]) else none
      | _ => none
    else none

/-- Leftmost `re.search(r'([\d,]+\.\d{2})', s)` capture. -/
def scanNumStrict : List Char → Option (List Char)
  | [] => none
  | c :: rest =>
    match numStrictAt (c :: rest) with
    | some g => some g
    | none => scanNumStrict rest

/-- Attempt `\(\+\s*\$([\d,]+\.\d{2})\)` (the option-text price delta) at
the head of `cs`. -/
def deltaAt : List Char → Option (List Char)
  | '(' :: '+' :: rest =>
    match rest.dropWhile isSpaceChar with
    | '$' :: r2 =>
      let run := r2.takeWhile isDigitOrComma
      if run.isEmpty then none
      else
        match r2.dropWhile isDigitOrComma with
        | '.' :: a :: b :: ')' :: _ =>
          if a.isDigit && b.isDigit then some (run ++ ['.', a, b]) else none
        | _ => none
    | _ => none
  | _ => none

/-- Leftmost `re.search(r'\(\+\s*\$([\d,]+\.\d{2})\)', s)` capture. -/
def scanDelta : List Char → Option (List Char)
  | [] => none
  | c :: rest =>
    match deltaAt (c :: rest) with
    | some g => some g
    | none => scanDelta rest

/-- Attempt `\[\+?\$([\d,]+(?:\.\d{2})?)\]` (the UL-option bracketed price)
at the head of `cs`. -/
def bracketAt : List Char → Option (List Char)
  | '[' :: rest =>
    let r1 := match rest with | '+' :: t => t | _ => rest
    match r1 with
    | '$' :: r2 =>
      let run := r2.takeWhile isDigitOrComma
      if run.isEmpty then none
      else
        match r2.dropWhile isDigitOrComma with
        | '.' :: a :: b :: ']' :: _ =>
          if a.isDigit && b.isDigit then some (run ++ ['.', a, b]) else none
        | ']' :: _ => some run
        | _ => none
    | _ => none
  | _ => none

/-- Leftmost `re.search(r'\[\+?\$([\d,]+(?:\.\d{2})?)\]', s)` capture. -/
def scanBracket : List Char → Option (List Char)
  | [] => none
  | c :: rest =>
    match bracketAt (c :: rest) with
    | some g => some g
    | none => scanBracket rest

end Scrape

namespace Scrape

/-- Match `"formatted"\s*:\s*"([^"]+)"` at the head of `cs`, returning the
capture (the greedy `[^"]+` runs to the next quote, which must exist). -/
def formattedAt (cs : List Char) : Option (List Char) :=
  if startsWithCS "\"formatted\"".data cs then
    match (cs.drop 11).dropWhile isSpaceChar with
    | ':' :: r2 =>
      match r2.dropWhile isSpaceChar with
      | '"' :: r4 =>
        let cap := r4.takeWhile (· ≠ '"')
        if cap.isEmpty then none
        else
          match r4.dropWhile (· ≠ '"') with
          | '"' :: _ => some cap
          | _ => none
      | _ => none
    | _ => none
  else none

/-- Match `KEY[^}]*"formatted"\s*:\s*"([^"]+)"` at the head of `cs`, where
`KEY` is the quoted key literal.  The greedy `[^}]*` cannot cross a closing
brace and, backtracking from longest, picks the last position inside that
window where the `"formatted"` part matches. -/
def keyFormattedAt (key : List Char) (cs : List Char) : Option (List Char) :=
  if startsWithCS key cs then
    let rest := cs.drop key.length
    let window := rest.takeWhile (· ≠ Char.ofNat 125)
    ((List.range (window.length + 1)).reverse).findSome? fun i =>
      formattedAt (rest.drop i)
  else none

/-- Leftmost match of the `"KEY"[^}]*"formatted"...` pattern. -/
def scanKeyFormatted (key : List Char) : List Char → Option (List Char)
  | [] => none
  | c :: rest =>
    match keyFormattedAt key (c :: rest) with
    | some g => some g
    | none => scanKeyFormatted key rest

/-- Match `"value"\s*:\s*([\d,]+(?:\.\d{2})?)` at the head of `cs`. -/
def valueNumAt (cs : List Char) : Option (List Char) :=
  if startsWithCS "\"value\"".data cs then
    match (cs.drop 7).dropWhile isSpaceChar with
    | ':' :: r2 => numGroupAt (r2.dropWhile isSpaceChar)
    | _ => none
  else none

/-- Leftmost match of the `"value"` numeric pattern. -/
def scanValueNum : List Char → Option (List Char)
  | [] => none
  | c :: rest =>
    match valueNumAt (c :: rest) with
    | some g => some g
    | none => scanValueNum rest

/-- Lines 252-259 of `call_product_variation_api`: a captured `price_str`
containing a dollar sign is returned verbatim; otherwise it is de-comma'd
and fed to `float`, a `ValueError` (returning `none` here) making the loop
continue with the next pattern. -/
def capToPrice (cap : List Char) : Option String :=
  if cap.contains '$' then some ⟨cap⟩
  else (parseCents (dropCommas cap)).map fmtCents

/-- The regex-fallback chain of `call_product_variation_api` (lines
242-259): four patterns tried in order, the first that matches and converts
winning. -/
def apiRegexPrice (text : List Char) : Option String :=
  match (scanKeyFormatted "\"price\"".data text).bind capToPrice with
  | some p => some p
  | none =>
    match (scanKeyFormatted "\"sales\"".data text).bind capToPrice with
    | some p => some p
    | none =>
      match (scanBroadDollar text).bind capToPrice with
      | some p => some p
      | none => (scanValueNum text).bind capToPrice

/-- A variation-API response: `jsonFormatted` is
`json['product']['price']['sales']['formatted']` when the body parses as
JSON and the `product`/`price`/`sales`/`formatted` keys are all present
(any `JSONDecodeError`/`KeyError` leaves it `none`, falling through to the
regex chain, per lines 231-239); `text` is the raw body.  A numeric or
`null` JSON body makes `'product' in json_data` raise `TypeError`, which
the outer `except Exception` turns into `None` before the regex chain —
but such a body holds no quote or dollar sign, so the regex chain matches
nothing on it either and the model's fallthrough returns `none` just the
same. -/
structure ApiResponse where
  jsonFormatted : Option String
  text : String

/-- Embedding of `call_product_variation_api` (lines 215-266) given a fetch
map keyed by the option's variation URL (urljoin, headers and
`raise_for_status` are absorbed into the map; a transport error is `none`,
matching the `except` handlers that return `None`).  An empty body skips
all parsing (`if response.text:`). -/
def call_product_variation_api (fetch : String → Option ApiResponse)
    (variation_url : String) : Option String :=
  match fetch variation_url with
  | none => none
  | some r =>
    if r.text = "" then none
    else
      match r.jsonFormatted with
      | some s => some s
      | none => apiRegexPrice r.text.data

end Scrape

namespace Scrape

/-- Match one alternative of a fallback unit group at `cs`: a sequence of
literal pieces joined by `\s*` (e.g. `fl\s*oz`).  Returns characters
consumed.  Case-insensitive; pieces are given lower-cased. -/
def altPiecesAt : List (List Char) → List Char → Option Nat
  | [], _ => some 0
  | [lit], cs => if startsWithCI lit cs then some lit.length else none
  | lit :: rest, cs =>
    if startsWithCI lit cs then
      let r := cs.drop lit.length
      let sp := (r.takeWhile isSpaceChar).length
      (altPiecesAt rest (r.dropWhile isSpaceChar)).map fun n => lit.length + sp + n
    else none

/-- Match one of the text-mining fallback patterns
`\b\d+\.?\d*\s*(ALT1|ALT2|...)\b` (`re.IGNORECASE`) at the head of `cs`,
given the word-character status of the preceding character; returns
characters consumed.  Alternatives are tried in order, a failed trailing
`\b` backtracking into the next alternative. -/
def fallbackSizeAt (alts : List (List (List Char))) (prevWord : Bool)
    (cs : List Char) : Option Nat :=
  if prevWord then none
  else match cs with
  | [] => none
  | c :: rest =>
    if !c.isDigit then none
    else
      let ds := rest.takeWhile Char.isDigit
      let r1 := rest.dropWhile Char.isDigit
      let n1 := 1 + ds.length
      let dotp : Nat × List Char :=
        match r1 with
        | '.' :: t => (n1 + 1, t)
        | _ => (n1, r1)
      let fs := (dotp.2.takeWhile Char.isDigit).length
      let r2 := dotp.2.dropWhile Char.isDigit
      let n2 := dotp.1 + fs
      let sp := (r2.takeWhile isSpaceChar).length
      let r3 := r2.dropWhile isSpaceChar
      let n3 := n2 + sp
      alts.findSome? fun alt =>
        (altPiecesAt alt r3).bind fun k =>
          if boundaryOk (r3.drop k) then some (n3 + k) else none

/-- Non-overlapping left-to-right matches of one fallback pattern —
`re.finditer` — returning each `match.group(0)`.  Fuel-indexed on the input
length (each step consumes at least one character). -/
def findAllSizesAux (alts : List (List (List Char))) :
    Nat → Bool → List Char → List String
  | 0, _, _ => []
  | fuel + 1, prevWord, cs =>
    match cs with
    | [] => []
    | c :: rest =>
      match fallbackSizeAt alts prevWord cs with
      | some n =>
        let m := cs.take n
        String.mk m ::
          findAllSizesAux alts fuel (isWordChar (m.getLastD 'x')) (cs.drop n)
      | none => findAllSizesAux alts fuel (isWordChar c) rest

/-- All matches of one fallback pattern in `s`. -/
def findAllSizes (alts : List (List (List Char))) (s : String) : List String :=
  findAllSizesAux alts s.data.length false s.data

/-- The six `size_patterns` of the text-mining fallback
(lines 704-711), alternatives in source order. -/
def fallbackPatternAlts : List (List (List (List Char))) :=
  [ [[['o','z']], [['o','u','n','c','e']], [['o','u','n','c','e','s']]],
    [[['g']], [['g','r','a','m']], [['g','r','a','m','s']]],
    [[['m','l']], [['m','i','l','l','i','l','i','t','e','r']],
     [['m','i','l','l','i','l','i','t','e','r','s']]],
    [[['k','g']], [['k','i','l','o','g','r','a','m']],
     [['k','i','l','o','g','r','a','m','s']]],
    [[['l','b']], [['p','o','u','n','d']], [['p','o','u','n','d','s']]],
    [[['f','l'], ['o','z']], [['f','l','u','i','d'], ['o','u','n','c','e']]] ]

/-- The fallback loop body (lines 713-717): for each pattern and each
match, append `size_text.strip()` to the size list when the unstripped
match text is nonempty and not already present. -/
def fallbackAppendSizes (allText : String) (sizes0 : List String) : List String :=
  fallbackPatternAlts.foldl
    (fun sizes alts =>
      (findAllSizes alts allText).foldl
        (fun szs m => if m ≠ "" && !szs.contains m then szs ++ [strip m] else szs)
        sizes)
    sizes0

/-- Match `_ep_\d+\.html` (`re.IGNORECASE`) at the head of `cs`. -/
def epAt (cs : List Char) : Bool :=
  startsWithCI ['_','e','p','_'] cs &&
    (let r := cs.drop 4
     let ds := r.takeWhile Char.isDigit
     !ds.isEmpty && startsWithCI ['.','h','t','m','l'] (r.dropWhile Char.isDigit))

/-- Search for `_ep_\d+\.html` anywhere in the URL. -/
def scanEp : List Char → Bool
  | [] => false
  | c :: rest => epAt (c :: rest) || scanEp rest

/-- Uppercase ASCII letter, the `[A-Z]` class (no `re.IGNORECASE` on the
product patterns). -/
def isUpper (c : Char) : Bool := 'A' ≤ c && c ≤ 'Z'

/-- The `[A-Z0-9]` class. -/
def isUpperDigit (c : Char) : Bool := isUpper c || c.isDigit

/-- Match `-[A-Z0-9]+-\d+\.html` (the part after the letter code),
case-sensitively. -/
def afterLetters : List Char → Bool
  | '-' :: r =>
    let run := r.takeWhile isUpperDigit
    !run.isEmpty &&
      (match r.dropWhile isUpperDigit with
       | '-' :: r2 =>
         let ds := r2.takeWhile Char.isDigit
         !ds.isEmpty && startsWithCS ['.','h','t','m','l'] (r2.dropWhile Char.isDigit)
       | _ => false)
  | _ => false

/-- Match `[A-Z]{n}` then `afterLetters` at the head of `cs`. -/
def lettersThen (n : Nat) (cs : List Char) : Bool :=
  (cs.take n).length = n && (cs.take n).all isUpper && afterLetters (cs.drop n)

/-- Match `[A-Z]{3,4}-[A-Z0-9]+-\d+\.html` at the head of `cs` (greedy: four
letters preferred over three). -/
def productCodeAt (cs : List Char) : Bool :=
  lettersThen 4 cs || lettersThen 3 cs

/-- Search for the first product pattern anywhere in the URL. -/
def scanCode1 : List Char → Bool
  | [] => false
  | c :: rest => productCodeAt (c :: rest) || scanCode1 rest

/-- Search for the second product pattern
`/[A-Z]{3,4}-[A-Z0-9]+\-\d+\.html` anywhere in the URL. -/
def scanCode2 : List Char → Bool
  | [] => false
  | c :: rest =>
    (c = '/' && productCodeAt rest) || scanCode2 rest

/-- The exclusion patterns of `is_product_url` (lines 190-201), each tried
with `re.IGNORECASE`. -/
def excludeMatch (url : String) : Bool :=
  scanEp url.data || strContainsCI url "service-" || strContainsCI url "formulas" ||
    strContainsCI url "/search?" || strContainsCI url "consultation" ||
    strContainsCI url "customization"

/-- The inclusion (product-code) patterns of `is_product_url`
(lines 204-211), matched without `re.IGNORECASE`. -/
def productPatternMatch (url : String) : Bool :=
  scanCode1 url.data || scanCode2 url.data

/-- Embedding of `is_product_url` (lines 184-213). -/
def is_product_url (url : String) : Bool :=
  if url = "" then false
  else if excludeMatch url then false
  else productPatternMatch url

/-- Modelled from the spec (for comparison only): the inclusion pattern as
the spec words it, with the `.html` extension matched case-insensitively.
Everything before the extension is as in `productCodeAt`. -/
def afterLettersCIext : List Char → Bool
  | '-' :: r =>
    let run := r.takeWhile isUpperDigit
    !run.isEmpty &&
      (match r.dropWhile isUpperDigit with
       | '-' :: r2 =>
         let ds := r2.takeWhile Char.isDigit
         !ds.isEmpty && startsWithCI ['.','h','t','m','l'] (r2.dropWhile Char.isDigit)
       | _ => false)
  | _ => false

/-- Modelled from the spec: `[A-Z]{3,4}-[A-Z0-9]+-\d+\.html` with a
case-insensitive extension, searched anywhere. -/
def scanCodeCIext : List Char → Bool
  | [] => false
  | c :: rest =>
    (((c :: rest).take 4).length = 4 && ((c :: rest).take 4).all isUpper
        && afterLettersCIext ((c :: rest).drop 4)) ||
      (((c :: rest).take 3).length = 3 && ((c :: rest).take 3).all isUpper
        && afterLettersCIext ((c :: rest).drop 3)) ||
      scanCodeCIext rest

end Scrape

namespace Scrape

/-- ASCII `str.lower()`. -/
def lowerStr (s : String) : String := ⟨s.data.map lowerChar⟩

/-- Python truthiness of an optional string (`None` and `''` are falsy). -/
def truthy : Option String → Bool
  | none => false
  | some s => s ≠ ""

/-- One `(size, price, source)` observation produced by a strategy. -/
structure Variant where
  size : String
  price : Option String
  source : String
deriving DecidableEq, Repr

/-- An `<option>` of a matched `<select>`: its `.text` (with `or ''`
already applied), `@value`, and `@data-price`. -/
structure OptionElem where
  text : String
  value : Option String
  dataPrice : Option String

/-- A matched size/option radio input: the text content of its adjacent or
enclosing label (absent when the xpath finds none, in which case the code
skips the input), and the first truthy of `data-price`,
`data-price-diff`, `data-calcprice` (the Python `or` chain). -/
structure RadioElem where
  labelText : Option String
  dataPrice : Option String

/-- A Python float as the scraper's price handling observes it: a signed
exact two-decimal amount (`cents` of magnitude), or `nan`/`±inf`
(`json.loads` accepts `NaN` and `Infinity`).  String prices that the code
coerces with `float(...)` are modelled by the resulting value; a
non-numeric string there raises and aborts the strategy, which is outside
the model. -/
inductive PyFloat where
  | finite (neg : Bool) (cents : Nat)
  | nan
  | inf (neg : Bool)
deriving DecidableEq, Repr

/-- Python `f'${v:.2f}'` on an arbitrary float: `$D.DD` for a finite
non-negative value, `$-D.DD` for a negative one, and `$nan` / `$inf` /
`$-inf` for the non-finite values (`f'{float("nan"):.2f}'` is `nan`). -/
def fmtFloat : PyFloat → String
  | .finite false c => fmtCents c
  | .finite true c =>
    ⟨'$' :: '-' :: natDigits (c / 100) ++
      ['.', Char.ofNat (48 + c % 100 / 10), Char.ofNat (48 + c % 10)]⟩
  | .nan => "$nan"
  | .inf false => "$inf"
  | .inf true => "$-inf"

/-- Python truthiness of a float: only (signed) zero is falsy (`NaN` and
the infinities are truthy). -/
def pyTruthy : PyFloat → Bool
  | .finite _ 0 => false
  | _ => true

/-- One offer of a JSON-LD item typed `Product` with an `offers` field:
the string fields scanned for a size, and the JSON `price` value (an
arbitrary JSON number, fed to `f'${float(price):.2f}'`). -/
structure JsonLdOffer where
  description : Option String
  name : Option String
  sku : Option String
  price : Option PyFloat

/-- A price field value in an inline-script variant entry: JSON numbers as
arbitrary floats, JSON strings verbatim. -/
inductive InlinePriceVal where
  | num (v : PyFloat)
  | str (s : String)
deriving DecidableEq, Repr

/-- One entry of a successfully `json.loads`-parsed inline variant array
(the regex-located `var product = {...}` / `"variants": [...]` fragments
are modelled as already parsed; entries appear in pattern-then-match
order). -/
structure InlineEntry where
  title : Option String
  name : Option String
  option1 : Option String
  option2 : Option String
  size : Option String
  price : Option InlinePriceVal
  price_min : Option InlinePriceVal
  price_max : Option InlinePriceVal

/-- One `<table>`: its header text nodes (`.//th//text() | .//td[1]//text()`)
and, for each non-header row, the row's `.//td//text()` nodes. -/
structure TableElem where
  headers : List String
  rows : List (List String)

/-- One text-bearing element for the proximity strategy: its `.text` and
the `.text` of its sibling/parent search elements, in search order. -/
structure ProxElem where
  text : String
  nearby : List String

/-- The parsed-page model: each field holds the node list the corresponding
xpath query of the source returns, plus the variation-API fetch map. -/
structure Page where
  selectOptions : List OptionElem
  dwvarOptions : List OptionElem
  priceElemTexts : List String
  radios : List RadioElem
  ulItems : List String
  jsonLdOffers : List JsonLdOffer
  inlineEntries : List InlineEntry
  tables : List TableElem
  proxElems : List ProxElem
  textNodes : List String
  nameCandidates : List (List String)
  api : String → Option ApiResponse

/-- The numeric value of an inline price field, when it is one. -/
def numVal : Option InlinePriceVal → Option PyFloat
  | some (.num v) => some v
  | _ => none

/-- Every page-supplied JSON numeric price: the JSON-LD offer prices and
the three inline-entry price fields.  These are the only numbers the code
formats with `f'${float(x):.2f}'` straight from page data. -/
def pageJsonPrices (page : Page) : List PyFloat :=
  page.jsonLdOffers.filterMap (·.price) ++
    page.inlineEntries.flatMap fun e =>
      [e.price, e.price_min, e.price_max].filterMap numVal

/-- The placeholder option texts skipped at line 289. -/
def placeholderTexts : List String := ["Choose Options", "Select Option", "Select Size", ""]

/-- Base-price detection (lines 278-285): the first price/sales element
text with a `\$([\d,]+\.\d{2})` match, in cents. -/
def findBasePrice (texts : List String) : Option Nat :=
  texts.findSome? fun t =>
    (scanStrictDollar t.data).bind fun g => parseCents (dropCommas g)

/-- The unit substrings checked by `any(unit in option_text.lower() ...)`
at line 300. -/
def optionUnitSubstrings : List String := ["oz", "ml", "g", "kg", "lb"]

/-- Size selection for a select option (lines 292-301): the full stripped
option text when the size regex matches or a unit substring occurs. -/
def optionSize (option_text : String) : Option String :=
  if (firstSizeMatch option_text).isSome then some (strip option_text)
  else if optionUnitSubstrings.any (fun u => strContains (lowerStr option_text) u) then
    some (strip option_text)
  else none

/-- Method 4 / radio / UL direct price: capture of
`\$([\d,]+(?:\.\d{2})?)`, de-comma'd, with `'.00'` appended when no dot
(lines 334-339 and analogues).  Total on the shapes the pattern admits. -/
def broadValCents (g : List Char) : Option Nat :=
  let g2 := dropCommas g
  if g2.contains '.' then parseCents g2 else parseCents (g2 ++ ['.', '0', '0'])

/-- Direct dollar price in option/label/list-item text (lines 334-339,
376-380, 404-408): the broad `\$([\d,]+(?:\.\d{2})?)` capture put through
the `'.00'`-completion and `float` formatting. -/
def broadDollarPrice (t : String) : Option String :=
  match scanBroadDollar t.data with
  | some g =>
    match broadValCents g with
    | some c => some (fmtCents c)
    | none => none
  | none => none

/-- Bracketed UL price (lines 411-416): `\[\+?\$([\d,]+(?:\.\d{2})?)\]`
with the same conversion. -/
def bracketPrice (t : String) : Option String :=
  match scanBracket t.data with
  | some g =>
    match broadValCents g with
    | some c => some (fmtCents c)
    | none => none
  | none => none

/-- Data-price handling (lines 316-322 and 368-373): `.ok none` when the
`([\d,]+(?:\.\d{2})?)` search fails (the price stays unset), `.error ()`
when the capture de-commas to the empty string and Python's `float('')`
raises `ValueError` (uncaught locally, aborting the enclosing loop). -/
def dataPriceStep (d : String) : Except Unit (Option String) :=
  match scanNumGroup d.data with
  | none => .ok none
  | some g =>
    match parseCents (dropCommas g) with
    | none => .error ()
    | some c => .ok (some (fmtCents c))

/-- Method 1 (lines 308-311): the Product-Variation API price when the
option value contains `Product-Variation`, else unset. -/
def method1Price (api : String → Option ApiResponse) (o : OptionElem) : Option String :=
  if (match o.value with
      | some u => strContains u "Product-Variation"
      | none => false) then
    match o.value with
    | some u => call_product_variation_api api u
    | none => none
  else none

/-- Method 2 (lines 316-322): keep a truthy Method-1 price, else consult
the data-price attribute; its `ValueError` propagates as `.error ()`. -/
def method2Price (dataPrice : Option String) (p1 : Option String) :
    Except Unit (Option String) :=
  if truthy p1 then .ok p1
  else match dataPrice with
    | none => .ok p1
    | some d =>
      match dataPriceStep d with
      | .error _ => .error ()
      | .ok none => .ok p1
      | .ok (some p) => .ok (some p)

/-- Method 3 (lines 324-331): a `(+$D.DD)` delta on the base price, or the
base price itself when the text has no parenthesis. -/
def method3Price (base : Option Nat) (option_text : String) (p2 : Option String) :
    Option String :=
  if truthy p2 then p2
  else match base with
    | none => p2
    | some b =>
      if b = 0 then p2  -- `if not option_price and base_price:` — 0.0 is falsy
      else
      match scanDelta option_text.data with
      | some g =>
        match parseCents (dropCommas g) with
        | some d => some (fmtCents (b + d))
        | none => p2
      | none =>
        if !strContains option_text "(" then some (fmtCents b) else p2

/-- Method 4 (lines 333-339): a direct dollar amount in the option text. -/
def method4Price (option_text : String) (p3 : Option String) : Option String :=
  if truthy p3 then p3
  else match broadDollarPrice option_text with
    | some p => some p
    | none => p3

/-- The four-method price resolution for one select option
(lines 304-339). -/
def selectOptionPrice (api : String → Option ApiResponse) (base : Option Nat)
    (o : OptionElem) (option_text : String) : Except Unit (Option String) :=
  match method2Price o.dataPrice (method1Price api o) with
  | .error _ => .error ()
  | .ok p2 => .ok (method4Price option_text (method3Price base option_text p2))

/-- Process one select option (lines 287-346).  `.ok none` means the option
contributes no variant; `.error ()` models the `ValueError` escaping
Method 2, which aborts the select loop keeping the variants collected so
far. -/
def processSelectOption (api : String → Option ApiResponse) (base : Option Nat)
    (o : OptionElem) : Except Unit (Option Variant) :=
  let option_text := strip o.text
  if option_text = "" || placeholderTexts.contains option_text then .ok none
  else
    match optionSize option_text with
    | none => .ok none
    | some size =>
      if size = "" then .ok none
      else
      let isApi := match o.value with
        | some u => strContains u "Product-Variation"
        | none => false
      match selectOptionPrice api base o option_text with
      | .error _ => .error ()
      | .ok p4 =>
        .ok (some ⟨size, p4, if isApi then "dynamic_api" else "option_data"⟩)

/-- The select-option loop, keeping the prefix collected before any
aborting exception. -/
def selectOptionsLoop (api : String → Option ApiResponse) (base : Option Nat) :
    List OptionElem → List Variant
  | [] => []
  | o :: rest =>
    match processSelectOption api base o with
    | .error _ => []
    | .ok none => selectOptionsLoop api base rest
    | .ok (some v) => v :: selectOptionsLoop api base rest

/-- Process one radio input (lines 354-388).  The price chain runs before
the `if size:` check, so a `ValueError` from a bad data-price aborts even
for sizeless inputs. -/
def processRadio (r : RadioElem) : Except Unit (Option Variant) :=
  match r.labelText with
  | none => .ok none
  | some lt0 =>
    let label_text := strip lt0
    let size := (firstSizeMatch label_text).map normWs
    let dpStep : Except Unit (Option String) :=
      match r.dataPrice with
      | none => .ok none
      | some d => dataPriceStep d
    match dpStep with
    | .error _ => .error ()
    | .ok p1 =>
      let price : Option String :=
        if truthy p1 then p1
        else match broadDollarPrice label_text with
          | some p => some p
          | none => p1
      match size with
      | some s => if s ≠ "" then .ok (some ⟨s, price, "radio_option"⟩) else .ok none
      | none => .ok none

/-- Process one UL/LI option item (lines 390-424); never raises. -/
def processUl (li0 : String) : Option Variant :=
  let li_text := strip li0
  let size := (firstSizeMatch li_text).map normWs
  let p1 : Option String := broadDollarPrice li_text
  let price : Option String :=
    if truthy p1 then p1
    else match bracketPrice li_text with
      | some p => some p
      | none => p1
  match size with
  | some s => if s ≠ "" then some ⟨s, price, "ul_option"⟩ else none
  | none => none

/-- The radio loop followed by the UL loop; both live in one `try` block
(lines 351-427), so a radio abort also skips the UL items. -/
def radioUlLoop : List RadioElem → List String → List Variant
  | [], uls => uls.filterMap processUl
  | r :: rest, uls =>
    match processRadio r with
    | .error _ => []
    | .ok none => radioUlLoop rest uls
    | .ok (some v) => v :: radioUlLoop rest uls

/-- Embedding of `extract_variants_from_options` (lines 268-429): the
select branch (with the `dwvar_` fallback xpath when the size-select xpath
finds nothing) followed by the radio/UL branch. -/
def extract_variants_from_options (page : Page) : List Variant :=
  let options := if page.selectOptions.isEmpty then page.dwvarOptions
                 else page.selectOptions
  let base := findBasePrice page.priceElemTexts
  selectOptionsLoop page.api base options ++ radioUlLoop page.radios page.ulItems

/-- Offer size selection (lines 449-457): scan `description`, `name`,
`sku` in order; the first field whose text matches the size regex wins (a
present field without a match falls through to the next). -/
def offerSize (o : JsonLdOffer) : Option String :=
  match o.description.bind firstSizeMatch with
  | some m => some (normWs m)
  | none =>
    match o.name.bind firstSizeMatch with
    | some m => some (normWs m)
    | none => (o.sku.bind firstSizeMatch).map normWs

/-- Embedding of `extract_variants_from_json_ld` (lines 431-473); the
`if size and price:` gate drops a zero price (Python falsiness), and the
kept price is `f'${float(price):.2f}'` of the raw JSON number
(line 463). -/
def extract_variants_from_json_ld (page : Page) : List Variant :=
  page.jsonLdOffers.filterMap fun o =>
    match offerSize o, o.price with
    | some s, some v =>
      if s ≠ "" && pyTruthy v then some ⟨s, some (fmtFloat v), "json_ld"⟩ else none
    | _, _ => none

/-- Inline entry size (lines 507-514): first of `title`, `name`,
`option1`, `option2`, `size` with a size-regex match. -/
def inlineSize (e : InlineEntry) : Option String :=
  match e.title.bind firstSizeMatch with
  | some m => some (normWs m)
  | none =>
    match e.name.bind firstSizeMatch with
    | some m => some (normWs m)
    | none =>
      match e.option1.bind firstSizeMatch with
      | some m => some (normWs m)
      | none =>
        match e.option2.bind firstSizeMatch with
        | some m => some (normWs m)
        | none => (e.size.bind firstSizeMatch).map normWs

/-- Inline entry price, last field `price_max` (the tail of the loop of
lines 516-527). -/
def inlinePriceMax (e : InlineEntry) : Option String :=
  match e.price_max with
  | some (.num v) => some (fmtFloat v)
  | some (.str s) =>
    match scanNumStrict s.data with
    | some g => (parseCents (dropCommas g)).map fmtCents
    | none => none
  | none => none

/-- Inline entry price, middle field `price_min` (falling through to
`price_max`). -/
def inlinePriceMin (e : InlineEntry) : Option String :=
  match e.price_min with
  | some (.num v) => some (fmtFloat v)
  | some (.str s) =>
    match scanNumStrict s.data with
    | some g => (parseCents (dropCommas g)).map fmtCents
    | none => inlinePriceMax e
  | none => inlinePriceMax e

/-- Inline entry price (lines 516-527): first of `price`, `price_min`,
`price_max`; a numeric value formats and stops, a string value stops only
when the `([\d,]+\.\d{2})` search succeeds. -/
def inlinePrice (e : InlineEntry) : Option String :=
  match e.price with
  | some (.num v) => some (fmtFloat v)
  | some (.str s) =>
    match scanNumStrict s.data with
    | some g => (parseCents (dropCommas g)).map fmtCents
    | none => inlinePriceMin e
  | none => inlinePriceMin e

/-- Embedding of `extract_variants_from_inline_json` (lines 475-543) over
the parsed entries. -/
def extract_variants_from_inline_json (page : Page) : List Variant :=
  page.inlineEntries.filterMap fun e =>
    match inlineSize e, inlinePrice e with
    | some s, some p =>
      if s ≠ "" && p ≠ "" then some ⟨s, some p, "inline_json"⟩ else none
    | _, _ => none

/-- Embedding of one table row (lines 557-578). -/
def tableRowVariant (row : List String) : Option Variant :=
  if 2 ≤ row.length then
    let size_text := strip (row.getD 0 "")
    let price_text := strip (row.getD 1 "")
    let size := (firstSizeMatch size_text).map normWs
    let price : Option String :=
      (scanStrictDollar price_text.data).bind fun g =>
        (parseCents (dropCommas g)).map fmtCents
    match size, price with
    | some s, some p =>
      if s ≠ "" && p ≠ "" then some ⟨s, some p, "table"⟩ else none
    | _, _ => none
  else none

/-- Embedding of `extract_variants_from_tables` (lines 545-583): only
tables whose joined, lower-cased header text contains both "size" and
"price" contribute. -/
def extract_variants_from_tables (page : Page) : List Variant :=
  (page.tables.filter fun t =>
      let h := lowerStr (" ".intercalate t.headers)
      strContains h "size" && strContains h "price").flatMap
    fun t => t.rows.filterMap tableRowVariant

/-- Embedding of `extract_variants_from_proximity` (lines 585-626): scan
elements in order; at the first size-bearing element with a nearby
strict-dollar price, emit one variant and stop; a size without a price
moves on to the next element (the `break` sits inside `if size and
price:`). -/
def extract_variants_from_proximity_aux : List ProxElem → List Variant
  | [] => []
  | e :: rest =>
    match firstSizeMatch e.text with
    | none => extract_variants_from_proximity_aux rest
    | some m =>
      let size := normWs m
      let price : Option String :=
        e.nearby.findSome? fun t =>
          (scanStrictDollar t.data).bind fun g =>
            (parseCents (dropCommas g)).map fmtCents
      match price with
      | some p =>
        if size ≠ "" && p ≠ "" then [⟨size, some p, "proximity"⟩]
        else extract_variants_from_proximity_aux rest
      | none => extract_variants_from_proximity_aux rest

/-- Embedding of `extract_variants_from_proximity`. -/
def extract_variants_from_proximity (page : Page) : List Variant :=
  extract_variants_from_proximity_aux page.proxElems

end Scrape

namespace Scrape

/-- Name extraction (lines 643-655): the first selector whose node list is
nonempty wins; its text nodes are stripped, empties dropped, and joined
with single spaces. -/
def extractName (cands : List (List String)) : String :=
  match cands.find? (fun ls => !ls.isEmpty) with
  | some ls => " ".intercalate ((ls.map strip).filter (· ≠ ""))
  | none => ""

/-- The consolidated product record (lines 635-641). -/
structure Product where
  name : String
  sizes : List String
  prices : List (String × String)
  price_info : String
  price_sources : List String
deriving DecidableEq, Repr

/-- Python-dict insertion on an association list: an existing key is
updated in place, a new key appended. -/
def dictInsert (m : List (String × String)) (k v : String) : List (String × String) :=
  if m.any (fun p => p.1 = k) then m.map (fun p => if p.1 = k then (k, v) else p)
  else m ++ [(k, v)]

/-- Python `dict[k]` lookup. -/
def dictFind (m : List (String × String)) (k : String) : Option String :=
  (m.find? (fun p => p.1 = k)).map (·.2)

/-- Set insertion kept as an insertion-ordered duplicate-free list
(`set.add`; the code's later `list(set)` order is unspecified in Python, so
claims use this list only up to membership). -/
def addUnique (l : List String) (x : String) : List String :=
  if l.contains x then l else l ++ [x]

/-- The accumulator of the consolidation loop (lines 685-692): the growing
`sizes` list, `prices` dict, and `sources_used` set. -/
structure ConsState where
  sizes : List String
  prices : List (String × String)
  sources : List String
deriving DecidableEq, Repr

/-- One iteration of the consolidation loop: append an unseen nonempty
size; for a truthy price, write `prices[size]` and record the source. -/
def consolidateStep (st : ConsState) (v : Variant) : ConsState :=
  let sizes1 := if v.size ≠ "" && !st.sizes.contains v.size then st.sizes ++ [v.size]
    else st.sizes
  if truthy v.price then
    ⟨sizes1, dictInsert st.prices v.size (v.price.getD ""), addUnique st.sources v.source⟩
  else ⟨sizes1, st.prices, st.sources⟩

/-- The consolidation loop over a variant list. -/
def consolidate (vs : List Variant) : ConsState :=
  vs.foldl consolidateStep ⟨[], [], []⟩

/-- The strategy chain with short-circuit (lines 657-682): each lower
priority runs only when `all_variants` is still empty. -/
def all_variants (page : Page) : List Variant :=
  let o := extract_variants_from_options page
  if !o.isEmpty then o
  else
    let j := extract_variants_from_json_ld page
    if !j.isEmpty then j
    else
      let i := extract_variants_from_inline_json page
      if !i.isEmpty then i
      else
        let t := extract_variants_from_tables page
        if !t.isEmpty then t
        else extract_variants_from_proximity page

/-- Lines 697-699: `' | '.join(list(set(prices.values())))` when the dict
is nonempty (the set modelled as first-seen-ordered distinct values). -/
def price_info_of (prices : List (String × String)) : String :=
  if prices.isEmpty then ""
  else " | ".intercalate ((prices.map (·.2)).foldl addUnique [])

/-- The body of `scrape_product_details` after a successful fetch
(lines 633-721): name extraction, the prioritized strategy chain,
consolidation, the price summary, and the text-mining size fallback when
no variant produced a size. -/
def scrapeProductPage (page : Page) : Product :=
  let name := extractName page.nameCandidates
  let st := consolidate (all_variants page)
  let info := price_info_of st.prices
  let sizes :=
    if st.sizes.isEmpty then
      fallbackAppendSizes (" ".intercalate page.textNodes) st.sizes
    else st.sizes
  { name := name, sizes := sizes, prices := st.prices,
    price_info := info, price_sources := st.sources }

/-- The crawl environment: the page fetch map (a `none` stands for any
fetch failure or scraping exception — `scrape_product_details` catches
every exception and returns `None`, lines 723-725) and the product-link
list `get_all_product_links` produced (its set iteration order is taken as
given). -/
structure World where
  fetch : String → Option Page
  productLinks : List String

/-- Embedding of `scrape_product_details` (lines 628-725): `none` exactly
when the fetch fails, otherwise the extracted Product. -/
def scrape_product_details (w : World) (url : String) : Option Product :=
  (w.fetch url).map scrapeProductPage

/-- The scraper instance state: the `self.products` attribute. -/
structure ScraperState where
  products : List Product
deriving DecidableEq, Repr

/-- A freshly constructed `MakingCosmeticsScraper()` (line 152:
`self.products = []`), as `run_scrape` creates for every crawl. -/
def initScraper : ScraperState := ⟨[]⟩

/-- The link list after the optional limit truncation (lines 740-742; a
non-positive limit is ignored). -/
def effLinks (w : World) (limit : Option Nat) : List String :=
  match limit with
  | some n => if 0 < n then w.productLinks.take n else w.productLinks
  | none => w.productLinks

/-- One iteration of the crawl loop (lines 746-761): keep the product iff
extraction succeeded and the name is nonempty; every failure path is
caught (`except ... continue`), so the state passes through unchanged. -/
def keepStep (w : World) (st : ScraperState) (url : String) : ScraperState :=
  match scrape_product_details w url with
  | some p => if p.name ≠ "" then { st with products := st.products ++ [p] } else st
  | none => st

/-- Embedding of `scrape_all_products` (lines 727-771): fold the crawl
loop over the (possibly truncated) links and return `self.products`. -/
def scrape_all_products (w : World) (st : ScraperState) (limit : Option Nat) :
    ScraperState × List Product :=
  let st2 := (effLinks w limit).foldl (keepStep w) st
  (st2, st2.products)

/-- The product one URL contributes to the crawl result, if any. -/
def keepProduct (w : World) (url : String) : Option Product :=
  match scrape_product_details w url with
  | some p => if p.name ≠ "" then some p else none
  | none => none

end Scrape

namespace Scrape

/-- The product record the consolidation loop alone (lines 684-699) builds
from a name and a variant list — no strategy chain and no text-mining
fallback.  Used to state that consolidating one strategy's output fully
determines the result. -/
def productFromVariants (name : String) (vs : List Variant) : Product :=
  let st := consolidate vs
  { name := name, sizes := st.sizes, prices := st.prices,
    price_info := price_info_of st.prices, price_sources := st.sources }

/-- First-seen-order deduplication, the reference shape for the `sizes`
list. -/
def dedupFirstSeen (l : List String) : List String := l.foldl addUnique []

/-- The nonempty sizes of a variant list, in order. -/
def variantSizes (vs : List Variant) : List String :=
  vs.filterMap fun v => if v.size ≠ "" then some v.size else none

/-- The price the last variant with size `k` and a truthy price assigns —
the reference value for `prices[k]` under Python's last-writer-wins dict
update. -/
def lastPriceSpec (vs : List Variant) (k : String) : Option String :=
  vs.foldl (fun acc v => if v.size = k && truthy v.price then v.price else acc) none

/-- A page on which every xpath query returns nothing and the variation
API is unreachable. -/
def emptyPage : Page :=
  ⟨[], [], [], [], [], [], [], [], [], [], [], fun _ => none⟩

/-- The spec's end-to-end scenario page: a single select option with text
`"1.0floz / 30ml (+$2.50)"`, no `value`, no `data-price`, and a
price-class element showing the `$10.00` base price. -/
def c2page : Page :=
  { emptyPage with
    selectOptions := [⟨"1.0floz / 30ml (+$2.50)", none, none⟩],
    priceElemTexts := ["$10.00"],
    nameCandidates := [["Test Product"]] }

/-- A page whose one option carries a `Product-Variation` value and whose
variation API answers with a JSON body in which
`product.price.sales.formatted` is the non-price string `"N/A"`. -/
def c4page : Page :=
  { emptyPage with
    selectOptions := [⟨"1.0floz / 30ml", some "/on/demandware.store/Product-Variation?pid=1", none⟩],
    nameCandidates := [["P"]],
    api := fun u =>
      if u = "/on/demandware.store/Product-Variation?pid=1" then
        some ⟨some "N/A",
          "\x7b\"product\": \x7b\"price\": \x7b\"sales\": \x7b\"formatted\": \"N/A\"\x7d\x7d\x7d\x7d"⟩
      else none }

/-- A page whose only size signal is a size/price table (no option
elements, so the variation API is never consulted). -/
def tablePage : Page :=
  { emptyPage with
    tables := [⟨["Size", "Price"], [["8 oz", "$5.00"]]⟩],
    nameCandidates := [["T"]] }

/-- A page whose only variant is a UL item with a size but no price. -/
def c8page : Page :=
  { emptyPage with ulItems := ["50g"], nameCandidates := [["P"]] }

/-- A page with no variant source at all, only body text with bare sizes
(the text-mining fallback case). -/
def c6page : Page :=
  { emptyPage with
    textNodes := ["Available in 50g and 100g"],
    nameCandidates := [["P"]] }

/-- A page with one priced select option (Options strategy succeeds). -/
def c1page : Page :=
  { emptyPage with
    selectOptions := [⟨"5 oz $3.00", none, none⟩],
    nameCandidates := [["N"]] }

/-- A crawl world with one good URL, one failing URL, and one URL whose
page yields an empty product name. -/
def w9 : World :=
  { fetch := fun u =>
      if u = "ok" then some c1page
      else if u = "noname" then some emptyPage
      else none,
    productLinks := ["ok", "bad", "noname"] }

/-- A one-link world for the statefulness check. -/
def w10 : World :=
  { fetch := fun u => if u = "u" then some c1page else none,
    productLinks := ["u"] }

/-- A scraper instance that already holds a product from an earlier
invocation of `scrape_all_products`. -/
def staleScraper : ScraperState := ⟨[scrapeProductPage c6page]⟩

end Scrape

namespace Scrape

theorem mem_addUnique (l : List String) (x y : String) :
    y ∈ addUnique l x ↔ y ∈ l ∨ y = x := by
  unfold addUnique
  split
  · next h => simp at h
              exact ⟨Or.inl, fun h2 => h2.elim id (fun e => e ▸ h)⟩
  · simp

theorem addUnique_nodup (l : List String) (x : String) (h : l.Nodup) :
    (addUnique l x).Nodup := by
  unfold addUnique
  split
  · exact h
  · next hc =>
      simp at hc
      simp [List.nodup_append, h, hc]

theorem foldl_addUnique_nodup (l : List String) :
    ∀ acc : List String, acc.Nodup → (l.foldl addUnique acc).Nodup := by
  induction l with
  | nil => intro acc h; exact h
  | cons a t ih => intro acc h; exact ih _ (addUnique_nodup _ _ h)

theorem dedupFirstSeen_nodup (l : List String) : (dedupFirstSeen l).Nodup :=
  foldl_addUnique_nodup l [] List.nodup_nil

theorem dictFind_cons (p : String × String) (t : List (String × String)) (k : String) :
    dictFind (p :: t) k = if p.1 = k then some p.2 else dictFind t k := by
  unfold dictFind
  by_cases h : p.1 = k
  · simp [List.find?, h]
  · simp [List.find?, h]

theorem dictFind_append_single (m : List (String × String)) (k0 v0 k : String) :
    dictFind (m ++ [(k0, v0)]) k =
      match dictFind m k with
      | some v => some v
      | none => if k0 = k then some v0 else none := by
  induction m with
  | nil => simp [dictFind, List.find?]; by_cases h : k0 = k <;> simp [h]
  | cons p t ih =>
    rw [List.cons_append, dictFind_cons, dictFind_cons]
    by_cases h : p.1 = k <;> simp [h, ih]

theorem dictFind_map_update (m : List (String × String)) (k0 v0 k : String) :
    dictFind (m.map (fun p => if p.1 = k0 then (k0, v0) else p)) k =
      if k = k0 then (if m.any (fun p => p.1 = k0) then some v0 else none)
      else dictFind m k := by
  induction m with
  | nil => by_cases h : k = k0 <;> simp [dictFind, List.find?, h]
  | cons p t ih =>
    simp only [List.map_cons, List.any_cons]
    by_cases hp : p.1 = k0
    · by_cases hk : k = k0
      · subst hk
        simp [hp, dictFind_cons]
      · have h1 : ¬(k0 = k) := fun e => hk e.symm
        have h2 : ¬(p.1 = k) := fun e => h1 (hp.symm.trans e)
        simp [hp, hk, dictFind_cons, ih, h1, h2]
    · by_cases hk2 : p.1 = k
      · have h3 : ¬(k = k0) := fun e => hp (hk2.trans e)
        simp [hp, hk2, dictFind_cons, h3]
      · have hd : decide (p.1 = k0) = false := by simp [hp]
        simp only [hp, if_false, dictFind_cons, if_neg hk2, ih, hd, Bool.false_or,
          decide_False]

theorem dictFind_none_of_no_key (m : List (String × String)) (k0 : String)
    (h : m.any (fun p => p.1 = k0) = false) : dictFind m k0 = none := by
  unfold dictFind
  rw [List.find?_eq_none.mpr]
  · rfl
  · intro x hx
    simp at h
    simp [h x.1 x.2 hx]

theorem dictFind_insert (m : List (String × String)) (k0 v0 k : String) :
    dictFind (dictInsert m k0 v0) k = if k = k0 then some v0 else dictFind m k := by
  unfold dictInsert
  split
  · next hany => rw [dictFind_map_update, hany]; simp
  · next hany =>
      rw [dictFind_append_single]
      rw [Bool.not_eq_true] at hany
      by_cases hk : k = k0
      · subst hk
        rw [dictFind_none_of_no_key m k hany]
      · have h1 : ¬(k0 = k) := fun e => hk e.symm
        cases h2 : dictFind m k <;> simp [h2, hk, h1]

theorem consolidateStep_sizes (st : ConsState) (v : Variant) :
    (consolidateStep st v).sizes =
      if v.size ≠ "" then addUnique st.sizes v.size else st.sizes := by
  unfold consolidateStep addUnique
  by_cases h1 : v.size = "" <;> by_cases h2 : st.sizes.contains v.size = true <;>
    simp [h1, h2, apply_ite ConsState.sizes]

theorem consolidateStep_prices (st : ConsState) (v : Variant) :
    (consolidateStep st v).prices =
      if truthy v.price then dictInsert st.prices v.size (v.price.getD "")
      else st.prices := by
  unfold consolidateStep
  by_cases h : truthy v.price = true <;> simp [h]

theorem consolidateStep_sources (st : ConsState) (v : Variant) :
    (consolidateStep st v).sources =
      if truthy v.price then addUnique st.sources v.source else st.sources := by
  unfold consolidateStep
  by_cases h : truthy v.price = true <;> simp [h]

theorem variantSizes_cons (v : Variant) (t : List Variant) :
    variantSizes (v :: t) =
      if v.size ≠ "" then v.size :: variantSizes t else variantSizes t := by
  unfold variantSizes
  by_cases h : v.size = "" <;> simp [h]

theorem consolidate_sizes_aux (vs : List Variant) :
    ∀ st : ConsState,
      (vs.foldl consolidateStep st).sizes = (variantSizes vs).foldl addUnique st.sizes := by
  induction vs with
  | nil => intro st; rfl
  | cons v t ih =>
    intro st
    rw [List.foldl_cons, variantSizes_cons, ih, consolidateStep_sizes]
    by_cases h : v.size = "" <;> simp [h]

theorem consolidate_sizes (vs : List Variant) :
    (consolidate vs).sizes = dedupFirstSeen (variantSizes vs) :=
  consolidate_sizes_aux vs ⟨[], [], []⟩

end Scrape

namespace Scrape

theorem truthy_getD (o : Option String) (h : truthy o = true) : o = some (o.getD "") := by
  cases o with
  | none => simp [truthy] at h
  | some s => rfl

theorem consolidate_prices_aux (vs : List Variant) (k : String) :
    ∀ st : ConsState,
      dictFind (vs.foldl consolidateStep st).prices k =
        vs.foldl (fun acc v => if v.size = k && truthy v.price then v.price else acc)
          (dictFind st.prices k) := by
  induction vs with
  | nil => intro st; rfl
  | cons v t ih =>
    intro st
    rw [List.foldl_cons, List.foldl_cons, ih]
    congr 1
    rw [consolidateStep_prices]
    by_cases hp : truthy v.price = true
    · rw [if_pos hp, dictFind_insert]
      by_cases hk : v.size = k
      · subst hk
        revert hp
        cases v.price with
        | none => intro hp; simp [truthy] at hp
        | some s => intro hp; simp [truthy] at hp; simp [truthy, hp]
      · have h1 : ¬(k = v.size) := fun e => hk e.symm
        have h2 : ¬((decide (v.size = k) && truthy v.price) = true) := by simp [hk]
        rw [if_neg h1, if_neg h2]
    · simp [hp]

theorem consolidate_prices (vs : List Variant) (k : String) :
    dictFind (consolidate vs).prices k = lastPriceSpec vs k :=
  consolidate_prices_aux vs k ⟨[], [], []⟩

theorem consolidate_sources_aux (vs : List Variant) (x : String) :
    ∀ st : ConsState,
      (x ∈ (vs.foldl consolidateStep st).sources ↔
        x ∈ st.sources ∨ ∃ v ∈ vs, v.source = x ∧ truthy v.price = true) := by
  induction vs with
  | nil => intro st; simp
  | cons v t ih =>
    intro st
    rw [List.foldl_cons, ih, consolidateStep_sources]
    by_cases hp : truthy v.price = true
    · rw [if_pos hp]
      constructor
      · rintro (h | h)
        · rcases (mem_addUnique _ _ _).mp h with h2 | h2
          · exact Or.inl h2
          · exact Or.inr ⟨v, List.mem_cons_self v t, h2.symm, hp⟩
        · obtain ⟨w, hw, hs, ht⟩ := h
          exact Or.inr ⟨w, List.mem_cons_of_mem v hw, hs, ht⟩
      · rintro (h | ⟨w, hw, hs, ht⟩)
        · exact Or.inl ((mem_addUnique _ _ _).mpr (Or.inl h))
        · rcases List.mem_cons.mp hw with rfl | hw2
          · exact Or.inl ((mem_addUnique _ _ _).mpr (Or.inr hs.symm))
          · exact Or.inr ⟨w, hw2, hs, ht⟩
    · rw [if_neg hp]
      constructor
      · rintro (h | h)
        · exact Or.inl h
        · obtain ⟨w, hw, hs, ht⟩ := h
          exact Or.inr ⟨w, List.mem_cons_of_mem v hw, hs, ht⟩
      · rintro (h | ⟨w, hw, hs, ht⟩)
        · exact Or.inl h
        · rcases List.mem_cons.mp hw with rfl | hw2
          · exact absurd ht hp
          · exact Or.inr ⟨w, hw2, hs, ht⟩

theorem consolidate_sources (vs : List Variant) (x : String) :
    x ∈ (consolidate vs).sources ↔ ∃ v ∈ vs, v.source = x ∧ truthy v.price = true := by
  rw [consolidate, consolidate_sources_aux]
  simp

end Scrape

namespace Scrape

theorem mem_values_dictInsert (m : List (String × String)) (k v p : String)
    (h : p ∈ (dictInsert m k v).map Prod.snd) :
    p ∈ m.map Prod.snd ∨ p = v := by
  unfold dictInsert at h
  split at h
  · rw [List.map_map] at h
    obtain ⟨q, hq, he⟩ := List.mem_map.mp h
    by_cases hk : q.1 = k
    · simp [Function.comp, hk] at he
      exact Or.inr he.symm
    · simp [Function.comp, hk] at he
      exact Or.inl (he ▸ List.mem_map_of_mem Prod.snd hq)
  · rw [List.map_append] at h
    rcases List.mem_append.mp h with h2 | h2
    · exact Or.inl h2
    · simp at h2
      exact Or.inr h2

theorem consolidate_values_aux (vs : List Variant) (p : String) :
    ∀ st : ConsState,
      p ∈ (vs.foldl consolidateStep st).prices.map Prod.snd →
        p ∈ st.prices.map Prod.snd ∨ ∃ v ∈ vs, v.price = some p := by
  induction vs with
  | nil => intro st h; exact Or.inl h
  | cons v t ih =>
    intro st h
    rcases ih _ h with h2 | h2
    · rw [consolidateStep_prices] at h2
      split at h2
      · next hp =>
          rcases mem_values_dictInsert _ _ _ _ h2 with h3 | h3
          · exact Or.inl h3
          · exact Or.inr ⟨v, List.mem_cons_self v t, by rw [truthy_getD v.price hp, h3]⟩
      · exact Or.inl h2
    · obtain ⟨w, hw, he⟩ := h2
      exact Or.inr ⟨w, List.mem_cons_of_mem v hw, he⟩

theorem consolidate_values (vs : List Variant) (p : String)
    (h : p ∈ (consolidate vs).prices.map Prod.snd) : ∃ v ∈ vs, v.price = some p := by
  rcases consolidate_values_aux vs p ⟨[], [], []⟩ h with h2 | h2
  · simp at h2
  · exact h2

theorem dictFind_mem_values (m : List (String × String)) (k p : String)
    (h : dictFind m k = some p) : p ∈ m.map Prod.snd := by
  unfold dictFind at h
  cases hf : m.find? (fun q => q.1 = k) with
  | none => rw [hf] at h; simp at h
  | some q =>
    rw [hf] at h
    simp at h
    exact h ▸ List.mem_map_of_mem Prod.snd (List.mem_of_find?_eq_some hf)

theorem foldl_addUnique_ne_nil (l : List String) :
    ∀ acc : List String, acc ≠ [] → l.foldl addUnique acc ≠ [] := by
  induction l with
  | nil => intro acc h; exact h
  | cons a t ih =>
    intro acc h
    refine ih _ ?_
    unfold addUnique
    split
    · exact h
    · exact fun e => by simp at e

theorem consolidate_sizes_ne (vs : List Variant) (v : Variant)
    (hv : v ∈ vs) (hne : v.size ≠ "") : (consolidate vs).sizes ≠ [] := by
  rw [consolidate_sizes]
  have hmem : v.size ∈ variantSizes vs := by
    unfold variantSizes
    exact List.mem_filterMap.mpr ⟨v, hv, by simp [hne]⟩
  unfold dedupFirstSeen
  obtain ⟨l1, l2, he⟩ := List.mem_iff_append.mp hmem
  rw [he, List.foldl_append, List.foldl_cons]
  refine foldl_addUnique_ne_nil _ _ ?_
  unfold addUnique
  split
  · next h => intro e; rw [e] at h; simp at h
  · exact fun e => by simp at e

end Scrape

namespace Scrape

theorem processSelectOption_size (api : String → Option ApiResponse) (base : Option Nat)
    (o : OptionElem) (v : Variant)
    (h : processSelectOption api base o = .ok (some v)) : v.size ≠ "" := by
  unfold processSelectOption at h
  simp only [] at h
  by_cases h1 : (decide (strip o.text = "") || placeholderTexts.contains (strip o.text)) = true
  · rw [if_pos h1] at h
    simp at h
  · rw [if_neg h1] at h
    cases h2 : optionSize (strip o.text) with
    | none => rw [h2] at h; simp at h
    | some size =>
      rw [h2] at h
      simp only [] at h
      by_cases h3 : size = ""
      · rw [if_pos h3] at h
        simp at h
      · rw [if_neg h3] at h
        repeat split at h
        all_goals
          first
          | (simp only [Except.ok.injEq, Option.some.injEq] at h
             rw [← h]
             simp only [ne_eq]
             exact h3)
          | simp at h

end Scrape

namespace Scrape

theorem selectOptionsLoop_size (api : String → Option ApiResponse) (base : Option Nat)
    (os : List OptionElem) (v : Variant)
    (h : v ∈ selectOptionsLoop api base os) : v.size ≠ "" := by
  induction os with
  | nil => simp [selectOptionsLoop] at h
  | cons o rest ih =>
    unfold selectOptionsLoop at h
    split at h
    · simp at h
    · exact ih h
    · next w hw =>
        rcases List.mem_cons.mp h with rfl | h2
        · exact processSelectOption_size api base o v hw
        · exact ih h2

theorem processRadio_size (r : RadioElem) (v : Variant)
    (h : processRadio r = .ok (some v)) : v.size ≠ "" := by
  unfold processRadio at h
  split at h
  · simp at h
  · next x lt heq =>
      simp only [] at h
      split at h
      · simp at h
      · cases hsz : Option.map normWs (firstSizeMatch (strip lt)) with
        | none => rw [hsz] at h; simp at h
        | some s =>
          rw [hsz] at h
          simp only [] at h
          split at h
          · next hse =>
              simp only [Except.ok.injEq, Option.some.injEq] at h
              rw [← h]
              simp only [ne_eq]
              assumption
          · simp at h

end Scrape

namespace Scrape

theorem processUl_size (li : String) (v : Variant)
    (h : processUl li = some v) : v.size ≠ "" := by
  unfold processUl at h
  simp only [] at h
  cases hsz : Option.map normWs (firstSizeMatch (strip li)) with
  | none => rw [hsz] at h; simp at h
  | some s =>
    rw [hsz] at h
    simp only [] at h
    split at h
    · next hse =>
        simp only [Option.some.injEq] at h
        rw [← h]
        simp only [ne_eq]
        assumption
    · simp at h

theorem radioUlLoop_size (rs : List RadioElem) (uls : List String) (v : Variant)
    (h : v ∈ radioUlLoop rs uls) : v.size ≠ "" := by
  induction rs with
  | nil =>
    unfold radioUlLoop at h
    obtain ⟨li, _, hv⟩ := List.mem_filterMap.mp h
    exact processUl_size li v hv
  | cons r rest ih =>
    unfold radioUlLoop at h
    split at h
    · simp at h
    · exact ih h
    · next w hw =>
        rcases List.mem_cons.mp h with rfl | h2
        · exact processRadio_size r v hw
        · exact ih h2

theorem options_size (page : Page) (v : Variant)
    (h : v ∈ extract_variants_from_options page) : v.size ≠ "" := by
  unfold extract_variants_from_options at h
  simp only [] at h
  rcases List.mem_append.mp h with h2 | h2
  · exact selectOptionsLoop_size _ _ _ v h2
  · exact radioUlLoop_size _ _ v h2

theorem json_ld_size (page : Page) (v : Variant)
    (h : v ∈ extract_variants_from_json_ld page) : v.size ≠ "" := by
  unfold extract_variants_from_json_ld at h
  obtain ⟨o, _, hv⟩ := List.mem_filterMap.mp h
  cases hs : offerSize o with
  | none => rw [hs] at hv; simp at hv
  | some s =>
    cases hp : o.price with
    | none => rw [hs, hp] at hv; simp at hv
    | some c =>
      rw [hs, hp] at hv
      simp only [] at hv
      split at hv
      · next hg =>
          simp only [Option.some.injEq] at hv
          rw [← hv]
          simp only [Bool.and_eq_true, decide_eq_true_eq] at hg
          exact hg.1
      · simp at hv

theorem inline_json_size (page : Page) (v : Variant)
    (h : v ∈ extract_variants_from_inline_json page) : v.size ≠ "" := by
  unfold extract_variants_from_inline_json at h
  obtain ⟨e, _, hv⟩ := List.mem_filterMap.mp h
  cases hs : inlineSize e with
  | none => rw [hs] at hv; simp at hv
  | some s =>
    cases hp : inlinePrice e with
    | none => rw [hs, hp] at hv; simp at hv
    | some p =>
      rw [hs, hp] at hv
      simp only [] at hv
      split at hv
      · next hg =>
          simp only [Option.some.injEq] at hv
          rw [← hv]
          simp only [Bool.and_eq_true, decide_eq_true_eq] at hg
          exact hg.1
      · simp at hv

theorem tables_size (page : Page) (v : Variant)
    (h : v ∈ extract_variants_from_tables page) : v.size ≠ "" := by
  unfold extract_variants_from_tables at h
  obtain ⟨t, _, hv⟩ := List.mem_flatMap.mp h
  obtain ⟨row, _, hrow⟩ := List.mem_filterMap.mp hv
  unfold tableRowVariant at hrow
  split at hrow
  · simp only [] at hrow
    cases hs : Option.map normWs (firstSizeMatch (strip (row.getD 0 ""))) with
    | none => rw [hs] at hrow; simp at hrow
    | some s =>
      cases hp : (scanStrictDollar (strip (row.getD 1 "")).data).bind
          (fun g => (parseCents (dropCommas g)).map fmtCents) with
      | none => rw [hs, hp] at hrow; simp at hrow
      | some p =>
        rw [hs, hp] at hrow
        simp only [] at hrow
        split at hrow
        · next hg =>
            simp only [Option.some.injEq] at hrow
            rw [← hrow]
            simp only [Bool.and_eq_true, decide_eq_true_eq] at hg
            exact hg.1
        · simp at hrow
  · simp at hrow

theorem proximity_aux_size (es : List ProxElem) (v : Variant)
    (h : v ∈ extract_variants_from_proximity_aux es) : v.size ≠ "" := by
  induction es with
  | nil => simp [extract_variants_from_proximity_aux] at h
  | cons e rest ih =>
    unfold extract_variants_from_proximity_aux at h
    split at h
    · exact ih h
    · next m hm =>
        simp only [] at h
        split at h
        · next p hp =>
            split at h
            · next hg =>
                rcases List.mem_singleton.mp h with rfl
                simp only [Bool.and_eq_true, decide_eq_true_eq] at hg
                exact hg.1
            · exact ih h
        · exact ih h

theorem proximity_size (page : Page) (v : Variant)
    (h : v ∈ extract_variants_from_proximity page) : v.size ≠ "" :=
  proximity_aux_size page.proxElems v h

theorem all_variants_size (page : Page) (v : Variant)
    (h : v ∈ all_variants page) : v.size ≠ "" := by
  unfold all_variants at h
  simp only [] at h
  split at h
  · exact options_size page v h
  · split at h
    · exact json_ld_size page v h
    · split at h
      · exact inline_json_size page v h
      · split at h
        · exact tables_size page v h
        · exact proximity_size page v h

end Scrape

namespace Scrape

theorem all_variants_eq_options (page : Page)
    (h : extract_variants_from_options page ≠ []) :
    all_variants page = extract_variants_from_options page := by
  unfold all_variants
  simp [h]

theorem all_variants_eq_nil_iff (page : Page) :
    all_variants page = [] ↔
      (extract_variants_from_options page = [] ∧ extract_variants_from_json_ld page = [] ∧
       extract_variants_from_inline_json page = [] ∧ extract_variants_from_tables page = [] ∧
       extract_variants_from_proximity page = []) := by
  unfold all_variants
  by_cases h1 : extract_variants_from_options page = []
  · by_cases h2 : extract_variants_from_json_ld page = []
    · by_cases h3 : extract_variants_from_inline_json page = []
      · by_cases h4 : extract_variants_from_tables page = []
        · simp [h1, h2, h3, h4]
        · simp [h1, h2, h3, h4]
      · simp [h1, h2, h3]
    · simp [h1, h2]
  · simp [h1]

theorem consolidated_sizes_nil_iff (page : Page) :
    (consolidate (all_variants page)).sizes = [] ↔ all_variants page = [] := by
  constructor
  · intro h
    by_contra hne
    obtain ⟨v, hv⟩ := List.exists_mem_of_ne_nil (all_variants page) hne
    exact consolidate_sizes_ne _ v hv (all_variants_size page v hv) h
  · intro h
    rw [h]
    rfl

theorem keepStep_products (w : World) (st : ScraperState) (url : String) :
    (keepStep w st url).products = st.products ++ (keepProduct w url).toList := by
  unfold keepStep keepProduct
  cases h : scrape_product_details w url with
  | none => simp
  | some p =>
    by_cases hn : p.name = "" <;> simp [hn]

theorem foldl_keepStep (w : World) (links : List String) :
    ∀ st : ScraperState,
      (links.foldl (keepStep w) st).products =
        st.products ++ links.filterMap (keepProduct w) := by
  induction links with
  | nil => intro st; simp
  | cons u t ih =>
    intro st
    rw [List.foldl_cons, ih, keepStep_products]
    cases h : keepProduct w u <;> simp [h, List.filterMap_cons]

theorem scrape_all_products_eq (w : World) (st : ScraperState) (limit : Option Nat) :
    (scrape_all_products w st limit).2 =
      st.products ++ (effLinks w limit).filterMap (keepProduct w) := by
  unfold scrape_all_products
  exact foldl_keepStep w _ st

theorem filterMap_filter_ne (f : String → Option Product) (a : String)
    (l : List String) (h : f a = none) :
    (l.filter (· ≠ a)).filterMap f = l.filterMap f := by
  induction l with
  | nil => rfl
  | cons x t ih =>
    simp only [ne_eq, decide_not] at ih ⊢
    by_cases hx : x = a
    · subst hx
      simp [List.filter_cons, List.filterMap_cons, h, ih]
    · simp only [List.filter_cons, hx, decide_False, Bool.not_false, if_true,
        List.filterMap_cons]
      cases hf : f x <;> simp [hf, ih]

end Scrape

namespace Scrape

theorem charOfNat_digit (n : Nat) (h : n < 10) : (Char.ofNat (48 + n)).isDigit = true := by
  interval_cases n <;> decide

theorem natDigitsAux_digits (fuel : Nat) :
    ∀ n c, c ∈ natDigitsAux fuel n → c.isDigit = true := by
  induction fuel with
  | zero => intro n c hc; simp [natDigitsAux] at hc
  | succ f ih =>
    intro n c hc
    unfold natDigitsAux at hc
    split at hc
    · next h =>
        rcases List.mem_singleton.mp hc with rfl
        exact charOfNat_digit n h
    · rcases List.mem_append.mp hc with h2 | h2
      · exact ih (n / 10) c h2
      · rcases List.mem_singleton.mp h2 with rfl
        exact charOfNat_digit (n % 10) (Nat.mod_lt _ (by omega))

theorem natDigitsAux_ne (fuel n : Nat) : natDigitsAux (fuel + 1) n ≠ [] := by
  unfold natDigitsAux
  split
  · simp
  · simp

theorem isDollarFmt_fmtCents (c : Nat) : isDollarFmt (fmtCents c) = true := by
  unfold isDollarFmt fmtCents
  show (decide ('$' = '$') &&
    !(List.takeWhile Char.isDigit (natDigits (c / 100) ++
        ['.', Char.ofNat (48 + c % 100 / 10), Char.ofNat (48 + c % 10)])).isEmpty &&
    isDollarFmtTail (List.dropWhile Char.isDigit (natDigits (c / 100) ++
        ['.', Char.ofNat (48 + c % 100 / 10), Char.ofNat (48 + c % 10)]))) = true
  unfold natDigits
  rw [List.takeWhile_append_of_pos (fun a ha => natDigitsAux_digits _ _ a ha),
    List.dropWhile_append_of_pos (fun a ha => natDigitsAux_digits _ _ a ha)]
  simp only [List.takeWhile, List.dropWhile]
  have h1 : ('.' : Char).isDigit = false := by decide
  rw [h1]
  simp only [Bool.false_eq_true, if_false, List.append_nil]
  have h2 := natDigitsAux_ne (c / 100) (c / 100)
  have h3 := charOfNat_digit (c % 100 / 10) (by omega)
  have h4 := charOfNat_digit (c % 10) (Nat.mod_lt _ (by omega))
  simp [isDollarFmtTail, List.isEmpty_eq_true, h2, h3, h4, natDigits]

end Scrape

namespace Scrape

theorem broadDollarPrice_fmt (t : String) (p : String)
    (h : broadDollarPrice t = some p) : ∃ c, p = fmtCents c := by
  unfold broadDollarPrice at h
  cases h1 : scanBroadDollar t.data with
  | none => rw [h1] at h; simp at h
  | some g =>
    rw [h1] at h
    simp only [] at h
    cases h2 : broadValCents g with
    | none => rw [h2] at h; simp at h
    | some c =>
      rw [h2] at h
      simp only [Option.some.injEq] at h
      exact ⟨c, h.symm⟩

theorem bracketPrice_fmt (t : String) (p : String)
    (h : bracketPrice t = some p) : ∃ c, p = fmtCents c := by
  unfold bracketPrice at h
  cases h1 : scanBracket t.data with
  | none => rw [h1] at h; simp at h
  | some g =>
    rw [h1] at h
    simp only [] at h
    cases h2 : broadValCents g with
    | none => rw [h2] at h; simp at h
    | some c =>
      rw [h2] at h
      simp only [Option.some.injEq] at h
      exact ⟨c, h.symm⟩

theorem dataPriceStep_fmt (d : String) (p : String)
    (h : dataPriceStep d = .ok (some p)) : ∃ c, p = fmtCents c := by
  unfold dataPriceStep at h
  cases h1 : scanNumGroup d.data with
  | none => rw [h1] at h; simp at h
  | some g =>
    rw [h1] at h
    simp only [] at h
    cases h2 : parseCents (dropCommas g) with
    | none => rw [h2] at h; simp at h
    | some c =>
      rw [h2] at h
      simp only [Except.ok.injEq, Option.some.injEq] at h
      exact ⟨c, h.symm⟩

theorem inlinePriceMax_fmt (e : InlineEntry) (p : String)
    (h : inlinePriceMax e = some p) :
    (∃ c, p = fmtCents c) ∨
      ∃ w, e.price_max = some (.num w) ∧ p = fmtFloat w := by
  unfold inlinePriceMax at h
  split at h
  · next v hv =>
      simp only [Option.some.injEq] at h
      exact Or.inr ⟨v, hv, h.symm⟩
  · next s hs =>
      cases h1 : scanNumStrict s.data with
      | none => rw [h1] at h; simp at h
      | some g =>
        rw [h1] at h
        simp only [Option.map_eq_some'] at h
        obtain ⟨c, _, he⟩ := h
        exact Or.inl ⟨c, he.symm⟩
  · simp at h

theorem inlinePriceMin_fmt (e : InlineEntry) (p : String)
    (h : inlinePriceMin e = some p) :
    (∃ c, p = fmtCents c) ∨
      ∃ w, (e.price_min = some (.num w) ∨ e.price_max = some (.num w)) ∧
        p = fmtFloat w := by
  unfold inlinePriceMin at h
  split at h
  · next v hv =>
      simp only [Option.some.injEq] at h
      exact Or.inr ⟨v, Or.inl hv, h.symm⟩
  · next s hs =>
      cases h1 : scanNumStrict s.data with
      | none =>
        rw [h1] at h
        rcases inlinePriceMax_fmt e p h with hc | ⟨w, hw, he⟩
        · exact Or.inl hc
        · exact Or.inr ⟨w, Or.inr hw, he⟩
      | some g =>
        rw [h1] at h
        simp only [Option.map_eq_some'] at h
        obtain ⟨c, _, he⟩ := h
        exact Or.inl ⟨c, he.symm⟩
  · next hnone =>
      rcases inlinePriceMax_fmt e p h with hc | ⟨w, hw, he⟩
      · exact Or.inl hc
      · exact Or.inr ⟨w, Or.inr hw, he⟩

theorem inlinePrice_fmt (e : InlineEntry) (p : String)
    (h : inlinePrice e = some p) :
    (∃ c, p = fmtCents c) ∨
      ∃ w, (e.price = some (.num w) ∨ e.price_min = some (.num w) ∨
            e.price_max = some (.num w)) ∧ p = fmtFloat w := by
  unfold inlinePrice at h
  split at h
  · next v hv =>
      simp only [Option.some.injEq] at h
      exact Or.inr ⟨v, Or.inl hv, h.symm⟩
  · next s hs =>
      cases h1 : scanNumStrict s.data with
      | none =>
        rw [h1] at h
        rcases inlinePriceMin_fmt e p h with hc | ⟨w, hw, he⟩
        · exact Or.inl hc
        · exact Or.inr ⟨w, Or.inr hw, he⟩
      | some g =>
        rw [h1] at h
        simp only [Option.map_eq_some'] at h
        obtain ⟨c, _, he⟩ := h
        exact Or.inl ⟨c, he.symm⟩
  · next hnone =>
      rcases inlinePriceMin_fmt e p h with hc | ⟨w, hw, he⟩
      · exact Or.inl hc
      · exact Or.inr ⟨w, Or.inr hw, he⟩

end Scrape

namespace Scrape

theorem method1Price_val (api : String → Option ApiResponse) (o : OptionElem) (q : String)
    (h : method1Price api o = some q) :
    ∃ u, call_product_variation_api api u = some q := by
  unfold method1Price at h
  split at h
  · cases ho : o.value with
    | none => rw [ho] at h; simp at h
    | some u => rw [ho] at h; exact ⟨u, h⟩
  · simp at h

theorem method2Price_val (dp : Option String) (p1 p2 : Option String)
    (h : method2Price dp p1 = .ok p2) :
    p2 = p1 ∨ ∃ c, p2 = some (fmtCents c) := by
  unfold method2Price at h
  split at h
  · simp at h; exact Or.inl h.symm
  · cases hdp : dp with
    | none => rw [hdp] at h; simp at h; exact Or.inl h.symm
    | some d =>
      rw [hdp] at h
      simp only [] at h
      cases hds : dataPriceStep d with
      | error a => rw [hds] at h; simp at h
      | ok po =>
        rw [hds] at h
        cases po with
        | none => simp at h; exact Or.inl h.symm
        | some q =>
          simp at h
          obtain ⟨c, hc⟩ := dataPriceStep_fmt d q hds
          exact Or.inr ⟨c, by rw [← h, hc]⟩

theorem method3Price_val (base : Option Nat) (t : String) (p2 : Option String) :
    method3Price base t p2 = p2 ∨ ∃ c, method3Price base t p2 = some (fmtCents c) := by
  unfold method3Price
  split
  · exact Or.inl rfl
  · cases base with
    | none => exact Or.inl rfl
    | some b =>
      simp only []
      by_cases hb : b = 0
      · rw [if_pos hb]
        exact Or.inl rfl
      · rw [if_neg hb]
        cases hg : scanDelta t.data with
        | some g =>
          simp only []
          cases hp : parseCents (dropCommas g) with
          | some d => simp only []; exact Or.inr ⟨b + d, rfl⟩
          | none => simp
        | none =>
          simp only []
          split
          · exact Or.inr ⟨b, rfl⟩
          · exact Or.inl rfl

theorem method4Price_val (t : String) (p3 : Option String) :
    method4Price t p3 = p3 ∨ ∃ c, method4Price t p3 = some (fmtCents c) := by
  unfold method4Price
  split
  · exact Or.inl rfl
  · cases hb : broadDollarPrice t with
    | some p =>
      obtain ⟨c, hc⟩ := broadDollarPrice_fmt t p hb
      exact Or.inr ⟨c, by rw [hc]⟩
    | none => exact Or.inl rfl

theorem selectOptionPrice_val (api : String → Option ApiResponse) (base : Option Nat)
    (o : OptionElem) (t : String) (p : String)
    (h : selectOptionPrice api base o t = .ok (some p)) :
    (∃ c, p = fmtCents c) ∨ ∃ u, call_product_variation_api api u = some p := by
  unfold selectOptionPrice at h
  cases h2 : method2Price o.dataPrice (method1Price api o) with
  | error a => rw [h2] at h; simp at h
  | ok p2 =>
    rw [h2] at h
    simp only [Except.ok.injEq] at h
    rcases method4Price_val t (method3Price base t p2) with h4 | ⟨c, h4⟩
    · rw [h4] at h
      rcases method3Price_val base t p2 with h3 | ⟨c, h3⟩
      · rw [h3] at h
        rcases method2Price_val o.dataPrice (method1Price api o) p2 h2 with h1 | ⟨c, h1⟩
        · rw [h1] at h
          obtain ⟨u, hu⟩ := method1Price_val api o p h
          exact Or.inr ⟨u, hu⟩
        · rw [h1] at h
          simp at h
          exact Or.inl ⟨c, h.symm⟩
      · rw [h3] at h
        simp at h
        exact Or.inl ⟨c, h.symm⟩
    · rw [h4] at h
      simp at h
      exact Or.inl ⟨c, h.symm⟩

end Scrape

namespace Scrape

theorem processSelectOption_price (api : String → Option ApiResponse) (base : Option Nat)
    (o : OptionElem) (v : Variant) (p : String)
    (h : processSelectOption api base o = .ok (some v)) (hp : v.price = some p) :
    (∃ c, p = fmtCents c) ∨ ∃ u, call_product_variation_api api u = some p := by
  unfold processSelectOption at h
  simp only [] at h
  split at h
  · simp at h
  · split at h
    · simp at h
    · split at h
      · simp at h
      · split at h
        · simp at h
        · next p4 hp4 =>
            simp only [Except.ok.injEq, Option.some.injEq] at h
            rw [← h] at hp
            simp only [] at hp
            rw [hp] at hp4
            exact selectOptionPrice_val api base o _ p hp4

theorem processRadio_price (r : RadioElem) (v : Variant) (p : String)
    (h : processRadio r = .ok (some v)) (hp : v.price = some p) :
    ∃ c, p = fmtCents c := by
  unfold processRadio at h
  split at h
  · simp at h
  · next lt hlt =>
      simp only [] at h
      split at h
      · simp at h
      · next p1 hp1 =>
          cases hsz : Option.map normWs (firstSizeMatch (strip lt)) with
          | none => rw [hsz] at h; simp at h
          | some s =>
            rw [hsz] at h
            simp only [] at h
            split at h
            · simp only [Except.ok.injEq, Option.some.injEq] at h
              rw [← h] at hp
              simp only [] at hp
              have hval : p1 = none ∨ ∃ c, p1 = some (fmtCents c) := by
                revert hp1
                cases hr : r.dataPrice with
                | none => intro hp1; simp at hp1; exact Or.inl hp1.symm
                | some d =>
                  intro hp1
                  simp only [] at hp1
                  cases hq : p1 with
                  | none => exact Or.inl rfl
                  | some q =>
                    obtain ⟨c, hc⟩ := dataPriceStep_fmt d q (by rw [hp1, hq])
                    exact Or.inr ⟨c, by rw [hc]⟩
              split at hp
              · next ht =>
                  rcases hval with rfl | ⟨c, hc⟩
                  · simp [truthy] at ht
                  · rw [hc] at hp
                    simp at hp
                    exact ⟨c, hp.symm⟩
              · split at hp
                · next q hq =>
                    obtain ⟨c, hc⟩ := broadDollarPrice_fmt (strip lt) q hq
                    simp at hp
                    exact ⟨c, by rw [← hp, hc]⟩
                · rcases hval with rfl | ⟨c, hc⟩
                  · simp at hp
                  · rw [hc] at hp
                    simp at hp
                    exact ⟨c, hp.symm⟩
            · simp at h

end Scrape

namespace Scrape

theorem processUl_price (li : String) (v : Variant) (p : String)
    (h : processUl li = some v) (hp : v.price = some p) : ∃ c, p = fmtCents c := by
  unfold processUl at h
  simp only [] at h
  cases hsz : Option.map normWs (firstSizeMatch (strip li)) with
  | none => rw [hsz] at h; simp at h
  | some s =>
    rw [hsz] at h
    simp only [] at h
    split at h
    · simp only [Option.some.injEq] at h
      rw [← h] at hp
      simp only [] at hp
      split at hp
      · next ht =>
          cases hb : broadDollarPrice (strip li) with
          | none => rw [hb] at ht hp; simp [truthy] at ht
          | some q =>
            rw [hb] at hp
            simp at hp
            obtain ⟨c, hc⟩ := broadDollarPrice_fmt (strip li) q hb
            exact ⟨c, by rw [← hp, hc]⟩
      · split at hp
        · next q hq =>
            obtain ⟨c, hc⟩ := bracketPrice_fmt (strip li) q hq
            simp at hp
            exact ⟨c, by rw [← hp, hc]⟩
        · cases hb : broadDollarPrice (strip li) with
          | none => rw [hb] at hp; simp at hp
          | some q =>
            rw [hb] at hp
            simp at hp
            obtain ⟨c, hc⟩ := broadDollarPrice_fmt (strip li) q hb
            exact ⟨c, by rw [← hp, hc]⟩
    · simp at h

theorem selectOptionsLoop_price (api : String → Option ApiResponse) (base : Option Nat)
    (os : List OptionElem) (v : Variant) (p : String)
    (h : v ∈ selectOptionsLoop api base os) (hp : v.price = some p) :
    (∃ c, p = fmtCents c) ∨ ∃ u, call_product_variation_api api u = some p := by
  induction os with
  | nil => simp [selectOptionsLoop] at h
  | cons o rest ih =>
    unfold selectOptionsLoop at h
    split at h
    · simp at h
    · exact ih h
    · next w hw =>
        rcases List.mem_cons.mp h with rfl | h2
        · exact processSelectOption_price api base o v p hw hp
        · exact ih h2

theorem radioUlLoop_price (rs : List RadioElem) (uls : List String) (v : Variant) (p : String)
    (h : v ∈ radioUlLoop rs uls) (hp : v.price = some p) : ∃ c, p = fmtCents c := by
  induction rs with
  | nil =>
    unfold radioUlLoop at h
    obtain ⟨li, _, hv⟩ := List.mem_filterMap.mp h
    exact processUl_price li v p hv hp
  | cons r rest ih =>
    unfold radioUlLoop at h
    split at h
    · simp at h
    · exact ih h
    · next w hw =>
        rcases List.mem_cons.mp h with rfl | h2
        · exact processRadio_price r v p hw hp
        · exact ih h2

theorem options_price (page : Page) (v : Variant) (p : String)
    (h : v ∈ extract_variants_from_options page) (hp : v.price = some p) :
    (∃ c, p = fmtCents c) ∨ ∃ u, call_product_variation_api page.api u = some p := by
  unfold extract_variants_from_options at h
  simp only [] at h
  rcases List.mem_append.mp h with h2 | h2
  · exact selectOptionsLoop_price _ _ _ v p h2 hp
  · exact Or.inl (radioUlLoop_price _ _ v p h2 hp)

theorem json_ld_price (page : Page) (v : Variant) (p : String)
    (h : v ∈ extract_variants_from_json_ld page) (hp : v.price = some p) :
    ∃ o ∈ page.jsonLdOffers, ∃ w, o.price = some w ∧ p = fmtFloat w := by
  unfold extract_variants_from_json_ld at h
  obtain ⟨o, ho, hv⟩ := List.mem_filterMap.mp h
  refine ⟨o, ho, ?_⟩
  cases hs : offerSize o with
  | none => rw [hs] at hv; simp at hv
  | some s =>
    cases hpr : o.price with
    | none => rw [hs, hpr] at hv; simp at hv
    | some w =>
      rw [hs, hpr] at hv
      simp only [] at hv
      split at hv
      · simp only [Option.some.injEq] at hv
        rw [← hv] at hp
        simp only [Option.some.injEq] at hp
        exact ⟨w, rfl, hp.symm⟩
      · simp at hv

theorem inline_json_price (page : Page) (v : Variant) (p : String)
    (h : v ∈ extract_variants_from_inline_json page) (hp : v.price = some p) :
    (∃ c, p = fmtCents c) ∨
      ∃ e ∈ page.inlineEntries, ∃ w,
        (e.price = some (.num w) ∨ e.price_min = some (.num w) ∨
          e.price_max = some (.num w)) ∧ p = fmtFloat w := by
  unfold extract_variants_from_inline_json at h
  obtain ⟨e, he, hv⟩ := List.mem_filterMap.mp h
  cases hs : inlineSize e with
  | none => rw [hs] at hv; simp at hv
  | some s =>
    cases hpr : inlinePrice e with
    | none => rw [hs, hpr] at hv; simp at hv
    | some q =>
      rw [hs, hpr] at hv
      simp only [] at hv
      split at hv
      · simp only [Option.some.injEq] at hv
        rw [← hv] at hp
        simp only [Option.some.injEq] at hp
        rcases inlinePrice_fmt e q hpr with ⟨c, hc⟩ | ⟨w, hw, hc⟩
        · exact Or.inl ⟨c, by rw [← hp, hc]⟩
        · exact Or.inr ⟨e, he, w, hw, by rw [← hp, hc]⟩
      · simp at hv

theorem tables_price (page : Page) (v : Variant) (p : String)
    (h : v ∈ extract_variants_from_tables page) (hp : v.price = some p) :
    ∃ c, p = fmtCents c := by
  unfold extract_variants_from_tables at h
  obtain ⟨t, _, hv⟩ := List.mem_flatMap.mp h
  obtain ⟨row, _, hrow⟩ := List.mem_filterMap.mp hv
  unfold tableRowVariant at hrow
  split at hrow
  · simp only [] at hrow
    cases hs : Option.map normWs (firstSizeMatch (strip (row.getD 0 ""))) with
    | none => rw [hs] at hrow; simp at hrow
    | some s =>
      cases hq : (scanStrictDollar (strip (row.getD 1 "")).data).bind
          (fun g => (parseCents (dropCommas g)).map fmtCents) with
      | none => rw [hs, hq] at hrow; simp at hrow
      | some q =>
        rw [hs, hq] at hrow
        simp only [] at hrow
        split at hrow
        · simp only [Option.some.injEq] at hrow
          rw [← hrow] at hp
          simp only [Option.some.injEq] at hp
          obtain ⟨g, _, hmap⟩ := Option.bind_eq_some.mp hq
          obtain ⟨c, _, hc⟩ := Option.map_eq_some'.mp hmap
          exact ⟨c, by rw [← hp, ← hc]⟩
        · simp at hrow
  · simp at hrow

theorem proximity_aux_price (es : List ProxElem) (v : Variant) (p : String)
    (h : v ∈ extract_variants_from_proximity_aux es) (hp : v.price = some p) :
    ∃ c, p = fmtCents c := by
  induction es with
  | nil => simp [extract_variants_from_proximity_aux] at h
  | cons e rest ih =>
    unfold extract_variants_from_proximity_aux at h
    split at h
    · exact ih h
    · next m hm =>
        simp only [] at h
        split at h
        · next q hq =>
            split at h
            · rcases List.mem_singleton.mp h with rfl
              simp only [Option.some.injEq] at hp
              obtain ⟨t, _, hb⟩ := List.exists_of_findSome?_eq_some hq
              obtain ⟨g, _, hmap⟩ := Option.bind_eq_some.mp hb
              obtain ⟨c, _, hc⟩ := Option.map_eq_some'.mp hmap
              exact ⟨c, by rw [← hp, ← hc]⟩
            · exact ih h
        · exact ih h

theorem jld_mem_pageJsonPrices (page : Page) (o : JsonLdOffer) (w : PyFloat)
    (ho : o ∈ page.jsonLdOffers) (hw : o.price = some w) :
    w ∈ pageJsonPrices page := by
  unfold pageJsonPrices
  exact List.mem_append.mpr (Or.inl (List.mem_filterMap.mpr ⟨o, ho, hw⟩))

theorem inline_mem_pageJsonPrices (page : Page) (e : InlineEntry) (w : PyFloat)
    (he : e ∈ page.inlineEntries)
    (hw : e.price = some (.num w) ∨ e.price_min = some (.num w) ∨
      e.price_max = some (.num w)) :
    w ∈ pageJsonPrices page := by
  unfold pageJsonPrices
  refine List.mem_append.mpr (Or.inr (List.mem_flatMap.mpr ⟨e, he, ?_⟩))
  refine List.mem_filterMap.mpr ?_
  rcases hw with hw | hw | hw
  · exact ⟨e.price, by simp, by rw [hw]; rfl⟩
  · exact ⟨e.price_min, by simp, by rw [hw]; rfl⟩
  · exact ⟨e.price_max, by simp, by rw [hw]; rfl⟩

theorem all_variants_price (page : Page) (v : Variant) (p : String)
    (h : v ∈ all_variants page) (hp : v.price = some p) :
    (∃ c, p = fmtCents c) ∨
      (∃ u, call_product_variation_api page.api u = some p) ∨
      ∃ w ∈ pageJsonPrices page, p = fmtFloat w := by
  unfold all_variants at h
  simp only [] at h
  split at h
  · rcases options_price page v p h hp with h2 | h2
    · exact Or.inl h2
    · exact Or.inr (Or.inl h2)
  · split at h
    · obtain ⟨o, ho, w, hw, hfmt⟩ := json_ld_price page v p h hp
      exact Or.inr (Or.inr ⟨w, jld_mem_pageJsonPrices page o w ho hw, hfmt⟩)
    · split at h
      · rcases inline_json_price page v p h hp with h2 | ⟨e, he, w, hw, hfmt⟩
        · exact Or.inl h2
        · exact Or.inr (Or.inr ⟨w, inline_mem_pageJsonPrices page e w he hw, hfmt⟩)
      · split at h
        · exact Or.inl (tables_price page v p h hp)
        · exact Or.inl (proximity_aux_price page.proxElems v p h hp)

end Scrape

namespace Scrape

/-- C1: on every fetched product page where the Options strategy returns at
least one variant, the Product's fields equal exactly what consolidating
the Options strategy's variant list alone produces — no lower-priority
strategy output is used and the text-mining fallback does not run. -/
theorem C1_options_short_circuit (page : Page)
    (h : extract_variants_from_options page ≠ []) :
    scrapeProductPage page =
      productFromVariants (extractName page.nameCandidates)
        (extract_variants_from_options page) := by
  have hav := all_variants_eq_options page h
  have hsz : (consolidate (all_variants page)).sizes ≠ [] := by
    rw [hav]
    obtain ⟨v, hv⟩ := List.exists_mem_of_ne_nil _ h
    exact consolidate_sizes_ne _ v hv (options_size page v hv)
  have hempty : (consolidate (all_variants page)).sizes.isEmpty = false := by
    rw [List.isEmpty_eq_false]
    exact hsz
  unfold scrapeProductPage productFromVariants
  rw [hav] at hempty ⊢
  simp only [hempty, Bool.false_eq_true, if_false]

end Scrape

namespace Scrape

/-- C1 witness: the Options strategy succeeds on the concrete option page,
and the theorem's conclusion holds there. -/
theorem C1_options_short_circuit_witness :
    extract_variants_from_options c1page ≠ [] ∧
    scrapeProductPage c1page =
      productFromVariants (extractName c1page.nameCandidates)
        (extract_variants_from_options c1page) :=
  ⟨by decide, C1_options_short_circuit c1page (by decide)⟩

end Scrape

namespace Scrape

/-- C2 counterexample: on the spec's end-to-end page the size string kept
is the full option text including the delta parenthetical, not the
truncated "1.0floz / 30ml" the claim asserts, and the prices mapping has
no entry under the truncated key. -/
theorem C2_counterexample :
    (scrapeProductPage c2page).sizes = ["1.0floz / 30ml (+$2.50)"] ∧
    (scrapeProductPage c2page).sizes ≠ ["1.0floz / 30ml"] ∧
    dictFind (scrapeProductPage c2page).prices "1.0floz / 30ml" = none := by
  decide

/-- C2 amended: the end-to-end scenario yields the full option text as the
size, the delta-added price `$12.50` keyed by that full text, and the
`option_data` source tag. -/
theorem C2_amended_end_to_end :
    (scrapeProductPage c2page).sizes = ["1.0floz / 30ml (+$2.50)"] ∧
    dictFind (scrapeProductPage c2page).prices "1.0floz / 30ml (+$2.50)" = some "$12.50" ∧
    (scrapeProductPage c2page).price_sources = ["option_data"] := by
  decide

/-- C3 counterexample: the claimed mappings fail outside the API formatted
field — a `data-price` of `"1234.5"` normalizes to `$1234.00` (the
fraction is captured only with exactly two decimals), and the bare inputs
`"1,234"` in option text or an API body produce no price at all. -/
theorem C3_counterexample :
    dataPriceStep "1234.5" = .ok (some "$1234.00") ∧
    broadDollarPrice "1,234" = none ∧
    call_product_variation_api (fun _ => some ⟨none, "1,234"⟩) "u" = none := by
  constructor
  · rfl
  · constructor <;> rfl

/-- C3 amended: at each normalization site the actual mappings are:
`"1,234"` → `$1234.00` and `"$12"`/`"12"` → `$12.00` where the pattern
captures them; `"1234.5"` → `$1234.00` at the regex sites (two-decimal
fractions only) and `$1234.50` only via the API formatted-field path. -/
theorem C3_amended_normalization :
    dataPriceStep "1,234" = .ok (some "$1234.00") ∧
    dataPriceStep "1234.5" = .ok (some "$1234.00") ∧
    dataPriceStep "$12" = .ok (some "$12.00") ∧
    broadDollarPrice "$1,234" = some "$1234.00" ∧
    broadDollarPrice "$1234.5" = some "$1234.00" ∧
    broadDollarPrice "$12" = some "$12.00" ∧
    call_product_variation_api (fun _ => some ⟨none, "$12"⟩) "u" = some "$12.00" ∧
    call_product_variation_api
      (fun _ => some ⟨none, "x \"price\" a \"formatted\": \"1234.5\" y"⟩) "u" = some "$1234.50" ∧
    call_product_variation_api (fun _ => some ⟨none, "\"value\": 1234.5"⟩) "u" = some "$1234.00" := by
  refine ⟨rfl, rfl, rfl, rfl, rfl, rfl, rfl, rfl, rfl⟩

end Scrape

namespace Scrape

/-- C4 counterexample: the variation API may return its JSON
`formatted` field verbatim; on `c4page` the stored price for the size is
the non-price string `"N/A"`, violating the `$D.DD` wire format, under the
`dynamic_api` source tag. -/
theorem C4_counterexample :
    dictFind (scrapeProductPage c4page).prices "1.0floz / 30ml" = some "N/A" ∧
    isDollarFmt "N/A" = false ∧
    (scrapeProductPage c4page).price_sources = ["dynamic_api"] := by
  decide

/-- C4 amended: every stored price is `$` + digits + `.` + two digits with
no separators, provided (i) every string the variation API client returns
has that form and (ii) every numeric price in the page's own JSON
(JSON-LD offers and inline-script entries) is finite and non-negative;
without proviso (i) the API's verbatim paths escape, and without (ii)
the `f-string` formatting of lines 463 and 521 stores e.g. `$-5.00` or
`$nan`. -/
theorem C4_amended_price_format (page : Page)
    (h : ∀ u q, call_product_variation_api page.api u = some q → isDollarFmt q = true)
    (hnum : ∀ w ∈ pageJsonPrices page, ∃ c, w = PyFloat.finite false c) :
    ∀ s p, dictFind (scrapeProductPage page).prices s = some p → isDollarFmt p = true := by
  intro s p hp
  have he : (scrapeProductPage page).prices = (consolidate (all_variants page)).prices := rfl
  rw [he] at hp
  obtain ⟨v, hv, hvp⟩ := consolidate_values _ p (dictFind_mem_values _ _ _ hp)
  rcases all_variants_price page v p hv hvp with ⟨c, rfl⟩ | ⟨u, hu⟩ | ⟨w, hw, rfl⟩
  · exact isDollarFmt_fmtCents c
  · exact h u p hu
  · obtain ⟨c, rfl⟩ := hnum w hw
    exact isDollarFmt_fmtCents c

/-- C4 witness: on the table-only page (whose API is unreachable and whose
JSON carries no numeric prices) the stored price `$5.00` is well-formed,
via the amended theorem. -/
theorem C4_amended_price_format_witness : isDollarFmt "$5.00" = true :=
  C4_amended_price_format tablePage
    (fun u q hq => by simp [call_product_variation_api, tablePage, emptyPage] at hq)
    (fun w hw => by simp [pageJsonPrices, tablePage, emptyPage] at hw)
    "8 oz" "$5.00" (by decide)

end Scrape

namespace Scrape

/-- C5 counterexample: the product-code extension is matched
case-sensitively — `/ABC-DEF-1.HTML` matches no exclusion pattern and
matches the spec's case-insensitive-extension reading of the inclusion
pattern, yet `is_product_url` rejects it. -/
theorem C5_counterexample :
    is_product_url "/ABC-DEF-1.HTML" = false ∧
    excludeMatch "/ABC-DEF-1.HTML" = false ∧
    scanCodeCIext "/ABC-DEF-1.HTML".data = true := by
  decide

/-- C5 amended: exclusion patterns are authoritative (any match forces
rejection regardless of the product-code patterns), and otherwise the URL
is accepted iff it matches the case-sensitive product-code patterns,
including a lowercase `.html` extension. -/
theorem C5_amended_is_product_url (url : String) :
    (excludeMatch url = true → is_product_url url = false) ∧
    (excludeMatch url = false →
      (is_product_url url = true ↔ productPatternMatch url = true)) := by
  constructor
  · intro he
    unfold is_product_url
    by_cases hu : url = "" <;> simp [hu, he]
  · intro he
    unfold is_product_url
    by_cases hu : url = ""
    · subst hu
      simp only [if_pos rfl]
      constructor
      · intro hf; exact absurd hf (by decide)
      · intro hp; exact absurd hp (by decide)
    · simp [hu, he]

/-- C5 witness: a URL matching both an exclusion and the code pattern is
rejected; an exclusion-free code-pattern URL is accepted. -/
theorem C5_amended_is_product_url_witness :
    is_product_url "Service-x/ABC-DEF-1.html" = false ∧
    is_product_url "/ABC-DEF-1.html" = true := by
  constructor
  · exact (C5_amended_is_product_url "Service-x/ABC-DEF-1.html").1 (by decide)
  · exact ((C5_amended_is_product_url "/ABC-DEF-1.html").2 (by decide)).mpr (by decide)

end Scrape

namespace Scrape

/-- C6: the text-mining fallback's guard (an empty consolidated size list,
line 702) holds iff every one of the five strategies returned an empty
list; and whenever it holds the Product's prices mapping and price_info
are empty. -/
theorem C6_fallback_iff_strategies_empty (page : Page) :
    ((consolidate (all_variants page)).sizes = [] ↔
      (extract_variants_from_options page = [] ∧
       extract_variants_from_json_ld page = [] ∧
       extract_variants_from_inline_json page = [] ∧
       extract_variants_from_tables page = [] ∧
       extract_variants_from_proximity page = [])) ∧
    ((consolidate (all_variants page)).sizes = [] →
      (scrapeProductPage page).prices = [] ∧ (scrapeProductPage page).price_info = "") := by
  constructor
  · rw [consolidated_sizes_nil_iff]
    exact all_variants_eq_nil_iff page
  · intro h
    have hav : all_variants page = [] := (consolidated_sizes_nil_iff page).mp h
    unfold scrapeProductPage
    rw [hav]
    exact ⟨rfl, rfl⟩

/-- C6 witness: on the text-only page the guard holds, the fallback mines
the sizes `50g` and `100g`, and prices and price_info stay empty. -/
theorem C6_fallback_iff_strategies_empty_witness :
    (consolidate (all_variants c6page)).sizes = [] ∧
    (scrapeProductPage c6page).prices = [] ∧
    (scrapeProductPage c6page).price_info = "" ∧
    (scrapeProductPage c6page).sizes = ["50g", "100g"] :=
  ⟨by decide, ((C6_fallback_iff_strategies_empty c6page).2 (by decide)).1,
   ((C6_fallback_iff_strategies_empty c6page).2 (by decide)).2, by decide⟩

/-- C7: consolidation keeps `sizes` as the distinct nonempty variant sizes
in first-seen order (`dedupFirstSeen`), the list is duplicate-free, each
`prices` entry is the last truthy price written for that size, and on the
spec's duplicate-size example the later `$12.00` wins while `30ml` appears
once. -/
theorem C7_consolidation_last_write_wins :
    (∀ vs : List Variant,
      (consolidate vs).sizes = dedupFirstSeen (variantSizes vs) ∧
      (consolidate vs).sizes.Nodup ∧
      ∀ k, dictFind (consolidate vs).prices k = lastPriceSpec vs k) ∧
    (consolidate [⟨"30ml", some "$10.00", "option_data"⟩,
                  ⟨"30ml", some "$12.00", "option_data"⟩]).sizes = ["30ml"] ∧
    dictFind (consolidate [⟨"30ml", some "$10.00", "option_data"⟩,
                           ⟨"30ml", some "$12.00", "option_data"⟩]).prices "30ml" =
      some "$12.00" := by
  refine ⟨fun vs => ⟨consolidate_sizes vs, ?_, fun k => consolidate_prices vs k⟩, by decide, by decide⟩
  rw [consolidate_sizes]
  exact dedupFirstSeen_nodup _

/-- C8 counterexample: a UL variant with a size but no price contributes
its size yet leaves `price_sources` empty — the source tag of a priceless
variant is not recorded. -/
theorem C8_counterexample :
    (scrapeProductPage c8page).sizes = ["50g"] ∧
    (scrapeProductPage c8page).price_sources = [] := by
  decide

/-- C8 amended: a tag is in `price_sources` iff some variant with that tag
carried a truthy price; variants contributing only a size do not add their
tag. -/
theorem C8_amended_price_sources (page : Page) (src : String) :
    src ∈ (scrapeProductPage page).price_sources ↔
      ∃ v ∈ all_variants page, v.source = src ∧ truthy v.price = true := by
  have he : (scrapeProductPage page).price_sources =
      (consolidate (all_variants page)).sources := rfl
  rw [he, consolidate_sources]

end Scrape

namespace Scrape

/-- C9: for a crawl on a freshly constructed scraper (as `run_scrape`
creates), a URL whose fetch fails or whose page yields an empty name
contributes no record, and the crawl returns exactly the kept Products in
visitation order, unchanged when the failing URL is removed; exceptions
are caught inside the loop, modelled by the total `keepStep` fold. -/
theorem C9_crawl_skips_failures (w : World) (limit : Option Nat) (url : String)
    (h : w.fetch url = none ∨ ∀ pg, w.fetch url = some pg → (scrapeProductPage pg).name = "") :
    keepProduct w url = none ∧
    (scrape_all_products w initScraper limit).2 =
      (effLinks w limit).filterMap (keepProduct w) ∧
    (scrape_all_products w initScraper limit).2 =
      ((effLinks w limit).filter (· ≠ url)).filterMap (keepProduct w) := by
  have hk : keepProduct w url = none := by
    unfold keepProduct scrape_product_details
    rcases h with h | h
    · rw [h]
      rfl
    · cases hf : w.fetch url with
      | none => rfl
      | some pg => simp [h pg hf]
  refine ⟨hk, ?_, ?_⟩
  · rw [scrape_all_products_eq]
    simp [initScraper]
  · rw [scrape_all_products_eq, filterMap_filter_ne _ _ _ hk]
    simp [initScraper]

/-- C9 witness: in the concrete world the failing URL `bad` contributes
nothing and the crawl result equals the kept products of the remaining
URLs. -/
theorem C9_crawl_skips_failures_witness :
    keepProduct w9 "bad" = none ∧
    (scrape_all_products w9 initScraper none).2 =
      ((effLinks w9 none).filter (· ≠ "bad")).filterMap (keepProduct w9) := by
  have h := C9_crawl_skips_failures w9 none "bad" (Or.inl rfl)
  exact ⟨h.1, h.2.2⟩

/-- C10 counterexample: a second invocation on the same scraper instance
returns the earlier invocation's product as well — the returned sequence
is not the Products kept during that invocation alone. -/
theorem C10_counterexample :
    (scrape_all_products w10 staleScraper none).2 ≠
      (effLinks w10 none).filterMap (keepProduct w10) := by
  decide

/-- C10 amended: `scrape_all_products` returns the scraper's accumulated
`self.products`, i.e. the pre-existing list followed by this invocation's
kept Products in visitation order; on a freshly constructed scraper
(empty list) that is exactly this invocation's kept Products. -/
theorem C10_amended_result_appends (w : World) (st : ScraperState) (limit : Option Nat) :
    (scrape_all_products w st limit).2 =
      st.products ++ (effLinks w limit).filterMap (keepProduct w) :=
  scrape_all_products_eq w st limit

end Scrape
